import Mathlib

/-!
Verification of the medical-jobs extraction pipeline (`src/config.py`,
`src/extract.py`) against its natural-language specification.

The Python code is shallowly embedded over `List Char`.  Python regular
expressions used by the code are small and concrete, so each one is embedded
as a bespoke, deterministic matcher that reproduces the leftmost /
greedy-with-backtracking semantics of `re.sub` / `re.search` /
`re.fullmatch` for that particular pattern; a comment above each matcher
records the pattern and the derivation of its deterministic form.  The
OpenAI call of `extract.py:main` is abstracted as an oracle
`Job → Option CanonJob` (`none` models the per-job exception path); file
I/O, printing and sleeping are dropped, and the job list handed to the
processing loop stands for the already sorted `jobs_list`.
-/

set_option maxRecDepth 16000

namespace MedJobs

/-- Characters of Python's `\s` class (and `str.strip`) for the ASCII inputs
handled by the pipeline. -/
def isSpaceChar (c : Char) : Bool :=
  c = ' ' || c = '\t' || c = '\n' || c = '\r' || c = '\x0b' || c = '\x0c'

/-- ASCII letters. -/
def isAsciiLetter (c : Char) : Bool :=
  ('a' ≤ c && c ≤ 'z') || ('A' ≤ c && c ≤ 'Z')

/-- ASCII digits. -/
def isDigitChar (c : Char) : Bool := '0' ≤ c && c ≤ '9'

/-- Python's `\w` class on ASCII input: letters, digits and underscore. -/
def isWordChar (c : Char) : Bool := isAsciiLetter c || isDigitChar c || c = '_'

/-- Class of the local part of `clean_text`'s e-mail pattern: `[a-zA-Z0-9._%+-]`. -/
def isLocalChar (c : Char) : Bool :=
  isAsciiLetter c || isDigitChar c || c = '.' || c = '_' || c = '%' || c = '+' || c = '-'

/-- Class of the domain part of `clean_text`'s e-mail pattern: `[a-zA-Z0-9.-]`. -/
def isDomChar (c : Char) : Bool :=
  isAsciiLetter c || isDigitChar c || c = '.' || c = '-'

/-- Word-ness of an optional character; the absent character (string edge)
counts as a non-word position, as in Python's `\b`. -/
def isWordOpt : Option Char → Bool
  | none => false
  | some c => isWordChar c

/-- The characters of a string literal, the bridge from Lean strings to the
`List Char` representation used throughout. -/
def lc (s : String) : List Char := s.data

/-- Python `str.lower` for the ASCII data handled here. -/
def lowerL (l : List Char) : List Char := l.map Char.toLower

/-- Python `str.strip()`. -/
def trimL (l : List Char) : List Char :=
  ((l.dropWhile (fun c => isSpaceChar c)).reverse.dropWhile (fun c => isSpaceChar c)).reverse

/-- Worker for `collapseWs`: the flag records whether the previous input
character was whitespace (i.e. we are inside a run already replaced). -/
def collapseWsGo : Bool → List Char → List Char
  | _, [] => []
  | inRun, c :: rest =>
    if isSpaceChar c then
      if inRun then collapseWsGo true rest else ' ' :: collapseWsGo true rest
    else c :: collapseWsGo false rest

/-- Python `re.sub(r"\s+", " ", s)`: every maximal whitespace run becomes a
single space. -/
def collapseWs (l : List Char) : List Char := collapseWsGo false l

/-- Python `pat in s` for a literal pattern (also `re.search` of a literal). -/
def startsWithL : List Char → List Char → Bool
  | [], _ => true
  | _ :: _, [] => false
  | p :: ps, c :: cs => p = c && startsWithL ps cs

/-- Leftmost containment of a literal pattern. -/
def containsSub (pat : List Char) : List Char → Bool
  | [] => startsWithL pat []
  | c :: cs => startsWithL pat (c :: cs) || containsSub pat cs

/-- Index of the leftmost occurrence of a literal pattern (`str.find`). -/
def findSub (pat : List Char) : List Char → Option Nat
  | [] => if startsWithL pat [] then some 0 else none
  | c :: cs =>
    if startsWithL pat (c :: cs) then some 0
    else (findSub pat cs).map (· + 1)

/-- Case-insensitive literal prefix test (`pat` is given lower-case). -/
def startsWithCI (pat l : List Char) : Bool :=
  startsWithL pat (lowerL (l.take pat.length))

/-- Try to complete `\.[a-zA-Z]{2,}\b` inside the maximal domain run `R` of
the e-mail pattern, the character following `R` in the whole string being
`look`.  Python's greedy `[a-zA-Z0-9.-]+` makes the split point `k` (length
of the domain proper) backtrack from largest to smallest; for a fixed `k` the
greedy `[a-zA-Z]{2,}` forces the maximal letter run, whose shrinkings all
fail the trailing `\b` (the boundary would fall between two letters), so the
run must be followed by a non-word character.  Returns the number of
characters of `R` consumed. -/
def emailTldOk (R : List Char) (look : Option Char) (k : Nat) : Option Nat :=
  if h : k < R.length then
    if R.get ⟨k, h⟩ = '.' then
      let afterDot := R.drop (k + 1)
      let t := afterDot.takeWhile (fun c => isAsciiLetter c)
      let next : Option Char :=
        match afterDot.drop t.length with
        | [] => look
        | c :: _ => some c
      if 2 ≤ t.length && !isWordOpt next then some (k + 1 + t.length) else none
    else none
  else none

/-- Scan the split point `k` of `emailTldOk` from `k₀` down to `1` (the
domain proper is nonempty). -/
def emailDomScan : Nat → List Char → Option Char → Option Nat
  | 0, _, _ => none
  | k + 1, R, look =>
    match emailTldOk R look (k + 1) with
    | some n => some n
    | none => emailDomScan k R look

/-- Length of the match of `clean_text`'s e-mail pattern
`\b[a-zA-Z0-9._%+-]+@[a-zA-Z0-9.-]+\.[a-zA-Z]{2,}\b` at the head of `l`,
with `prev` the character before `l`.  The greedy local part must be the
maximal `isLocalChar` run (a shorter one is still followed by a local
character, never by `@`), so the matcher is deterministic except for the
domain split handled by `emailDomScan`. -/
def emailMatchAt (prev : Option Char) (l : List Char) : Option Nat :=
  match l with
  | [] => none
  | c :: _ =>
    if !isLocalChar c then none
    else if isWordOpt prev == isWordChar c then none
    else
      let loc := l.takeWhile (fun d => isLocalChar d)
      match l.drop loc.length with
      | d :: r2 =>
        if d = '@' then
          let R := r2.takeWhile (fun e => isDomChar e)
          if R.isEmpty then none
          else
            let look : Option Char := (r2.drop R.length).head?
            match emailDomScan (R.length - 1) R look with
            | some n => some (loc.length + 1 + n)
            | none => none
        else none
      | [] => none

/-- Worker for `emailSub`: scan left to right, removing each leftmost match
and resuming after it; `prev` is the previous character of the *original*
string (Python matches against the original string throughout `re.sub`). -/
def emailSubGo : Nat → Option Char → List Char → List Char
  | 0, _, l => l
  | fuel + 1, prev, l =>
    match l with
    | [] => []
    | c :: rest =>
      match emailMatchAt prev l with
      | some n => emailSubGo fuel ((l.take n).getLast?) (l.drop n)
      | none => c :: emailSubGo fuel (some c) rest

/-- Python `re.sub(r"\b[a-zA-Z0-9._%+-]+@[a-zA-Z0-9.-]+\.[a-zA-Z]{2,}\b", "", s)`. -/
def emailSub (l : List Char) : List Char := emailSubGo (l.length + 1) none l

/-- Length of the match of `https?://\S+|www\.\S+` at the head of `l`.  The
first alternative is tried first; `\S+` is greedy with nothing after it, so
it always takes the maximal non-space run. -/
def urlMatchAt (l : List Char) : Option Nat :=
  if startsWithL (lc "https://") l then
    let run := (l.drop 8).takeWhile (fun c => !isSpaceChar c)
    if run.isEmpty then none else some (8 + run.length)
  else if startsWithL (lc "http://") l then
    let run := (l.drop 7).takeWhile (fun c => !isSpaceChar c)
    if run.isEmpty then none else some (7 + run.length)
  else if startsWithL (lc "www.") l then
    let run := (l.drop 4).takeWhile (fun c => !isSpaceChar c)
    if run.isEmpty then none else some (4 + run.length)
  else none

/-- Worker for `urlSub`. -/
def urlSubGo : Nat → List Char → List Char
  | 0, l => l
  | fuel + 1, l =>
    match l with
    | [] => []
    | c :: rest =>
      match urlMatchAt l with
      | some n => urlSubGo fuel (l.drop n)
      | none => c :: urlSubGo fuel rest

/-- Python `re.sub(r"https?://\S+|www\.\S+", "", s)`. -/
def urlSub (l : List Char) : List Char := urlSubGo (l.length + 1) l

/-- `config.clean_text`: collapse whitespace and strip, remove e-mail
addresses, remove URLs, collapse whitespace and strip again. -/
def cleanText (l : List Char) : List Char :=
  trimL (collapseWs (urlSub (emailSub (trimL (collapseWs l)))))

/-- Full match of `\w+\.\w+/?\S*`: since `\S*` absorbs any non-space tail,
this holds exactly when the string has no whitespace, starts with a nonempty
word run followed by `.` and then a word character (a shorter greedy `\w+`
is still followed by a word character, never `.`, so the first run is
forced). -/
def fullmatchUrlish (t : List Char) : Bool :=
  t.all (fun c => !isSpaceChar c) &&
  (let w1 := t.takeWhile (fun c => isWordChar c)
   !w1.isEmpty &&
    (match t.drop w1.length with
     | '.' :: c :: _ => isWordChar c
     | _ => false))

/-- `config.looks_like_url`. The `re.search(r"(https?://|www\.)", t)` of the
code holds exactly when one of the three literals occurs in `t`. -/
def looksLikeUrl (l : List Char) : Bool :=
  if l.isEmpty then false
  else
    let t := lowerL (trimL l)
    containsSub (lc "http://") t || containsSub (lc "https://") t ||
      containsSub (lc "www.") t || fullmatchUrlish t

/-- `config.has_protected_email`. -/
def hasProtectedEmail (l : List Char) : Bool :=
  !l.isEmpty &&
    (let t := lowerL l
     containsSub (lc "email protected") t || containsSub (lc "__cf_email__") t ||
       containsSub (lc "email-protection") t || containsSub (lc "email redacted") t ||
       containsSub (lc "protected]") t)

/-- Anchor phrases of `config.extract_apply_section`, in priority order. -/
def applyAnchors : List (List Char) :=
  [lc "how to apply", lc "method of application",
   lc "application procedure", lc "application method"]

/-- `config.extract_apply_section`: the first anchor (in list order) found in
the lowered text selects a 2000-character slice of the original text, which
is cleaned. -/
def extractApplySection (text : List Char) : List Char :=
  if text.isEmpty then [] else go applyAnchors
where
  go : List (List Char) → List Char
    | [] => []
    | a :: rest =>
      match findSub a (lowerL text) with
      | some idx => cleanText ((text.drop idx).take 2000)
      | none => go rest

/-- Class `[^\n\r\.]` of the captured group of `extract_subject`'s first two
patterns. -/
def isGroupChar (c : Char) : Bool := !(c = '\n' || c = '\r' || c = '.')

/-- Backtracking tail `\s*([^\n\r\.]+)` shared by `extract_subject`'s first
two patterns: the greedy `\s*` takes the maximal whitespace run and gives
characters back one at a time until the group can capture at least one
character (whitespace itself is in the group's class, so at most one step of
backtracking can succeed after a maximal run).  Returns the captured group. -/
def subjInner (v : List Char) : Option (List Char) :=
  go (v.takeWhile (fun c => isSpaceChar c)).length
where
  go : Nat → Option (List Char)
    | 0 =>
      let g := v.takeWhile (fun c => isGroupChar c)
      if g.isEmpty then none else some g
    | j + 1 =>
      let g := (v.drop (j + 1)).takeWhile (fun c => isGroupChar c)
      if g.isEmpty then go j else some g

/-- Tail `\s*[:\-]\s*([^\n\r\.]+)` of `extract_subject`'s first pattern,
applied after the literal `subject`.  The first greedy `\s*` admits no
backtracking (a shorter run is followed by whitespace, never `:` or `-`). -/
def subjP1Tail (u : List Char) : Option (List Char) :=
  let s1 := u.takeWhile (fun c => isSpaceChar c)
  match u.drop s1.length with
  | c :: rest => if c = ':' || c = '-' then subjInner rest else none
  | [] => none

/-- Leftmost match of `subject\s*[:\-]\s*([^\n\r\.]+)` (case-insensitive),
returning the captured group from the original text. -/
def subjP1 (t : List Char) : Option (List Char) := go t
where
  go : List Char → Option (List Char)
    | [] => none
    | c :: cs =>
      if startsWithCI (lc "subject") (c :: cs) then
        match subjP1Tail ((c :: cs).drop 7) with
        | some g => some g
        | none => go cs
      else go cs

/-- Tail `\s*[:\-]?\s*([^\n\r\.]+)` of `extract_subject`'s second pattern:
the greedy `\s*` backtracks from its maximal run, at each split first trying
to consume a `:`/`-` (the `?` is greedy) and then to proceed without it. -/
def subjP2Tail (u : List Char) : Option (List Char) :=
  go (u.takeWhile (fun c => isSpaceChar c)).length
where
  attempt (i : Nat) : Option (List Char) :=
    let rest := u.drop i
    (match rest with
     | c :: rest2 => if c = ':' || c = '-' then subjInner rest2 else none
     | [] => none) <|> subjInner rest
  go : Nat → Option (List Char)
    | 0 => attempt 0
    | i + 1 =>
      match attempt (i + 1) with
      | some g => some g
      | none => go i

/-- Leftmost match of `with the subject\s*[:\-]?\s*([^\n\r\.]+)`
(case-insensitive). -/
def subjP2 (t : List Char) : Option (List Char) := go t
where
  go : List Char → Option (List Char)
    | [] => none
    | c :: cs =>
      if startsWithCI (lc "with the subject") (c :: cs) then
        match subjP2Tail ((c :: cs).drop 16) with
        | some g => some g
        | none => go cs
      else go cs

/-- `config.extract_subject`: the three patterns are tried in order; the
first two clean and truncate their captured group, the third returns a fixed
sentence. -/
def extractSubject (t : List Char) : List Char :=
  if t.isEmpty then []
  else
    match subjP1 t with
    | some g => (cleanText g).take 120
    | none =>
      match subjP2 t with
      | some g => (cleanText g).take 120
      | none =>
        if containsSub (lc "using the job title as the subject") (lowerL t) then
          lc "Use the job title as the subject"
        else []

/-- Phrases of `config.is_portal_apply`. -/
def portalPhrases : List (List Char) :=
  [lc "apply online", lc "apply through the link", lc "click here to apply",
   lc "application portal", lc "career portal", lc "apply now"]

/-- ATS URL markers of `config.is_portal_apply`. -/
def atsMarkers : List (List Char) :=
  [lc "workday", lc "myworkdayjobs", lc "greenhouse", lc "lever.co",
   lc "smartrecruiters", lc "icims", lc "taleo", lc "/apply"]

/-- `config.is_portal_apply`. -/
def isPortalApply (text applyUrl : List Char) : Bool :=
  portalPhrases.any (fun p => containsSub p (lowerL text)) ||
    atsMarkers.any (fun m => containsSub m (lowerL applyUrl))

/-- `re.search(r"\bemail\b|e-mail", t, re.IGNORECASE)` of
`normalize_how_to_apply`: either the word `email` with word boundaries on
both sides, or the literal `e-mail` anywhere. -/
def hasEmailWord (t : List Char) : Bool := go none (lowerL t)
where
  go : Option Char → List Char → Bool
    | _, [] => false
    | prev, c :: cs =>
      (startsWithL (lc "email") (c :: cs) && !isWordOpt prev &&
        !isWordOpt ((c :: cs).drop 5).head?) ||
      startsWithL (lc "e-mail") (c :: cs) ||
      go (some c) cs

/-- `re.search(r"\bwhatsapp\b|\bcall\b|\bphone\b", t, re.IGNORECASE)`; the
code computes it (`has_phone`) but never uses it. -/
def hasPhoneWord (t : List Char) : Bool := go none (lowerL t)
where
  word (w : List Char) (prev : Option Char) (l : List Char) : Bool :=
    startsWithL w l && !isWordOpt prev && !isWordOpt (l.drop w.length).head?
  go : Option Char → List Char → Bool
    | _, [] => false
    | prev, c :: cs =>
      word (lc "whatsapp") prev (c :: cs) || word (lc "call") prev (c :: cs) ||
        word (lc "phone") prev (c :: cs) || go (some c) cs

/-- A raw scraped job record.  Python jobs are loose dictionaries; the fields
read anywhere in `extract.py` are modelled as `List Char` fields whose
default `[]` stands for both a missing key and an empty value — the code
reads them with `job.get(k)` followed by truthiness tests, for which the two
coincide.  The single exception is `_source`, read as
`job.get("_source", source_name)` where a missing key (and only a missing
key) falls back to the default, hence an `Option`; it is named `sourceTag`
(`scrapedAtTag` models `_scraped_at`). -/
structure Job where
  title : List Char := []
  job_title : List Char := []
  company_name : List Char := []
  company : List Char := []
  location : List Char := []
  state : List Char := []
  country : List Char := []
  date_posted : List Char := []
  posted_date : List Char := []
  date : List Char := []
  deadline : List Char := []
  salary : List Char := []
  job_type : List Char := []
  employment_type : List Char := []
  experience : List Char := []
  qualification : List Char := []
  link : List Char := []
  job_url : List Char := []
  apply_url : List Char := []
  email_protected : List Char := []
  full_description : List Char := []
  description : List Char := []
  requirements : List Char := []
  responsibilities : List Char := []
  how_to_apply : List Char := []
  other_info : List Char := []
  raw_content : List Char := []
  scraped_at : List Char := []
  scrapedAtTag : List Char := []
  sourceTag : Option (List Char) := none
deriving DecidableEq

/-- `" ".join(items)`. -/
def joinSpace : List (List Char) → List Char
  | [] => []
  | [x] => x
  | x :: y :: rest => x ++ ' ' :: joinSpace (y :: rest)

/-- First fixed bullet of the portal branch of `normalize_how_to_apply`. -/
def portalBullet1 : List Char :=
  lc "Submit your application through the employer’s online recruitment portal."

/-- The fixed call-to-action bullet. -/
def ctaBullet : List Char := lc "Click Apply Now for full details."

/-- The fixed bullet of the bare-apply-URL branch. -/
def applyViaBullet : List Char := lc "Apply via the Apply Now button for full details."

/-- The placeholder sentence filtered out of the final bullets. -/
def placeholderBullet : List Char := lc "email protected – see original listing"

/-- The e-mail instruction line assembled by `normalize_how_to_apply`
(lines 170–177 of `config.py`): base sentence, a protected-e-mail note, and
an optional `Subject:` clause. -/
def emailInstructionLine (isProt : Bool) (subj : List Char) : List Char :=
  let line := lc "Email the address shown on the original listing" ++
    (if isProt then lc " (email is protected on some sites)." else lc ".")
  if subj.isEmpty then line else line ++ lc " Subject: " ++ subj ++ lc "."

/-- `clean_text(raw_job.get("raw_content") or "")`. -/
def rawTextOf (j : Job) : List Char := cleanText j.raw_content

/-- `apply_section or raw_text` of `normalize_how_to_apply`. -/
def sourceTextOf (j : Job) : List Char :=
  let a := extractApplySection j.raw_content
  if a.isEmpty then rawTextOf j else a

/-- The subject captured from the source text. -/
def subjectOf (j : Job) : List Char := extractSubject (sourceTextOf j)

/-- The cleaned, truthiness-filtered model items joined by spaces
(`joined_model` in `normalize_how_to_apply`).  A `model_list` that is not a
list (`isinstance` check) is modelled by `none`. -/
def joinedModelOf (modelList : Option (List (List Char))) : List Char :=
  match modelList with
  | some xs => joinSpace ((xs.map cleanText).filter (fun x => !x.isEmpty))
  | none => []

/-- Body of `config.normalize_how_to_apply` with the model list's only
contribution — `has_protected_email(joined_model)` — passed as a bit. -/
def normalizeCore (protFromModel : Bool) (rawJob : Job)
    (applyUrl : List Char) : List (List Char) :=
  let sourceText := sourceTextOf rawJob
  let subject := subjectOf rawJob
  let isProt := hasProtectedEmail (rawTextOf rawJob) || protFromModel
  let hasEmail := hasEmailWord sourceText || isProt
  let hasPortal := isPortalApply sourceText applyUrl
  let hasApplyUrl := !applyUrl.isEmpty
  let bullets : List (List Char) :=
    if hasPortal then [portalBullet1, ctaBullet]
    else if hasEmail then [emailInstructionLine isProt subject]
    else if hasPortal || hasApplyUrl then [applyViaBullet]
    else []
  let bullets :=
    if bullets.isEmpty then [ctaBullet]
    else
      let last := lowerL (bullets.getLastD [])
      if !containsSub (lc "apply now") last &&
          last ≠ lc "click apply now for full details." then
        bullets ++ [ctaBullet]
      else bullets
  let cleaned := (bullets.map cleanText).filter (fun b =>
    !b.isEmpty && !looksLikeUrl b && !containsSub placeholderBullet (lowerL b))
  if cleaned.isEmpty then [ctaBullet] else cleaned.take 2

/-- `config.normalize_how_to_apply`. -/
def normalizeHowToApply (modelList : Option (List (List Char))) (rawJob : Job)
    (applyUrl : List Char) : List (List Char) :=
  normalizeCore (hasProtectedEmail (joinedModelOf modelList)) rawJob applyUrl

/-- A calendar date, standing for Python's `datetime.date`. -/
structure SimpleDate where
  year : Nat
  month : Nat
  day : Nat
deriving DecidableEq

/-- Gregorian leap years. -/
def isLeapYear (y : Nat) : Bool := (y % 4 = 0 && y % 100 ≠ 0) || y % 400 = 0

/-- Days in a month. -/
def daysInMonth (y m : Nat) : Nat :=
  if m = 2 then (if isLeapYear y then 29 else 28)
  else if m = 4 || m = 6 || m = 9 || m = 11 then 30
  else 31

/-- The next calendar day. -/
def nextDay (d : SimpleDate) : SimpleDate :=
  if d.day < daysInMonth d.year d.month then ⟨d.year, d.month, d.day + 1⟩
  else if d.month < 12 then ⟨d.year, d.month + 1, 1⟩
  else ⟨d.year + 1, 1, 1⟩

/-- The previous calendar day. -/
def prevDay (d : SimpleDate) : SimpleDate :=
  if 1 < d.day then ⟨d.year, d.month, d.day - 1⟩
  else if 1 < d.month then ⟨d.year, d.month - 1, daysInMonth d.year (d.month - 1)⟩
  else ⟨d.year - 1, 12, 31⟩

/-- `date + timedelta(days=n)`. -/
def addDays (d : SimpleDate) : Nat → SimpleDate
  | 0 => d
  | n + 1 => addDays (nextDay d) n

/-- `date - timedelta(days=n)`. -/
def subDays (d : SimpleDate) : Nat → SimpleDate
  | 0 => d
  | n + 1 => subDays (prevDay d) n

/-- Python's `<` on dates (lexicographic on year, month, day). -/
def dateLt (a b : SimpleDate) : Bool :=
  a.year < b.year || (a.year = b.year &&
    (a.month < b.month || (a.month = b.month && a.day < b.day)))

/-- Decimal digits of a number, left-padded with zeros to width `w`. -/
def padNat (w n : Nat) : List Char :=
  let s := Nat.toDigits 10 n
  List.replicate (w - s.length) '0' ++ s

/-- `date.isoformat()`. -/
def dateIso (d : SimpleDate) : List Char :=
  padNat 4 d.year ++ '-' :: (padNat 2 d.month ++ '-' :: padNat 2 d.day)

/-- Numeric value of a digit run (Python `int`). -/
def natOfDigits (l : List Char) : Nat :=
  l.foldl (fun a c => a * 10 + (c.toNat - '0'.toNat)) 0

/-- Worker for `ordinalSub`, Python
`re.sub(r"(\d+)(st|nd|rd|th)\b", r"\1", s, flags=re.I)`: at a digit, the
greedy `\d+` is forced to the maximal run (a shorter one is followed by a
digit, never by a suffix letter); on failure the scan advances one character,
which is equivalent to retrying inside the same run. -/
def ordinalSubGo : Nat → List Char → List Char
  | 0, l => l
  | fuel + 1, l =>
    match l with
    | [] => []
    | c :: rest =>
      if isDigitChar c then
        let D := l.takeWhile (fun d => isDigitChar d)
        let after := l.drop D.length
        let suf := lowerL (after.take 2)
        if (suf = lc "st" || suf = lc "nd" || suf = lc "rd" || suf = lc "th") &&
            !isWordOpt (after.drop 2).head? then
          D ++ ordinalSubGo fuel (after.drop 2)
        else c :: ordinalSubGo fuel rest
      else c :: ordinalSubGo fuel rest

/-- Strip ordinal suffixes from day numbers (`parse_date`, line 74). -/
def ordinalSub (l : List Char) : List Char := ordinalSubGo (l.length + 1) l

/-- `s.replace(",", "")`. -/
def removeCommas (l : List Char) : List Char := l.filter (fun c => c ≠ ',')

/-- `s.rstrip(".")`. -/
def rstripDots (l : List Char) : List Char :=
  (l.reverse.dropWhile (fun c => c = '.')).reverse

/-- The canonicalisation of `parse_date` (lines 73–76): strip, drop ordinal
suffixes, drop commas, strip, drop trailing periods, collapse whitespace. -/
def canonDate (s : List Char) : List Char :=
  collapseWs (rstripDots (trimL (removeCommas (ordinalSub (trimL s)))))

/-- Abbreviated month names of `%b` (C locale, matched case-insensitively). -/
def monthAbbrs : List (List Char) :=
  [lc "jan", lc "feb", lc "mar", lc "apr", lc "may", lc "jun",
   lc "jul", lc "aug", lc "sep", lc "oct", lc "nov", lc "dec"]

/-- Full month names of `%B`. -/
def monthNames : List (List Char) :=
  [lc "january", lc "february", lc "march", lc "april", lc "may", lc "june",
   lc "july", lc "august", lc "september", lc "october", lc "november",
   lc "december"]

/-- Abbreviated weekday names of `%a`. -/
def weekdayAbbrs : List (List Char) :=
  [lc "sun", lc "mon", lc "tue", lc "wed", lc "thu", lc "fri", lc "sat"]

/-- Full weekday names of `%A`. -/
def weekdayNames : List (List Char) :=
  [lc "sunday", lc "monday", lc "tuesday", lc "wednesday", lc "thursday",
   lc "friday", lc "saturday"]

/-- Case-insensitive name-list parser; returns the 1-based index. -/
def pName (names : List (List Char)) (t : List Char) : Option (Nat × List Char) :=
  go names 1
where
  go : List (List Char) → Nat → Option (Nat × List Char)
    | [], _ => none
    | n :: rest, i =>
      if startsWithCI n t then some (i, t.drop n.length) else go rest (i + 1)

/-- `%d`: one or two digits with value 1–31 (the pattern
`3[01]|[12]\d|0[1-9]|[1-9]`); in every format used here the next format
character is not a digit, so taking the maximal run of at most two digits is
equivalent. -/
def pDay (t : List Char) : Option (Nat × List Char) :=
  let D := t.takeWhile (fun c => isDigitChar c)
  if (D.length = 1 || D.length = 2) && 1 ≤ natOfDigits D && natOfDigits D ≤ 31 then
    some (natOfDigits D, t.drop D.length)
  else none

/-- `%m`: one or two digits with value 1–12. -/
def pMonthNum (t : List Char) : Option (Nat × List Char) :=
  let D := t.takeWhile (fun c => isDigitChar c)
  if (D.length = 1 || D.length = 2) && 1 ≤ natOfDigits D && natOfDigits D ≤ 12 then
    some (natOfDigits D, t.drop D.length)
  else none

/-- `%Y`: exactly four digits. -/
def pYear4 (t : List Char) : Option (Nat × List Char) :=
  let D := t.take 4
  if D.length = 4 && D.all (fun c => isDigitChar c) then
    some (natOfDigits D, t.drop 4)
  else none

/-- A literal character of a format string. -/
def pLit (c : Char) (t : List Char) : Option (List Char) :=
  match t with
  | d :: rest => if d = c then some rest else none
  | [] => none

/-- Whitespace in a `strptime` format matches `\s+`. -/
def pWs1 (t : List Char) : Option (List Char) :=
  let S := t.takeWhile (fun c => isSpaceChar c)
  if S.isEmpty then none else some (t.drop S.length)

/-- `datetime(y, m, d)` validity, as checked by `strptime` when it builds the
result (`ValueError` on an out-of-range day or year). -/
def mkValidDate (y m d : Nat) : Option SimpleDate :=
  if 1 ≤ y && 1 ≤ m && m ≤ 12 && 1 ≤ d && d ≤ daysInMonth y m then
    some ⟨y, m, d⟩
  else none

/-- `%d/%b/%Y`. -/
def tryFmtSlashAbbr (t : List Char) : Option SimpleDate := do
  let (d, t) ← pDay t
  let t ← pLit '/' t
  let (m, t) ← pName monthAbbrs t
  let t ← pLit '/' t
  let (y, t) ← pYear4 t
  if t.isEmpty then mkValidDate y m d else none

/-- `%d-%m-%Y`. -/
def tryFmtDashNum (t : List Char) : Option SimpleDate := do
  let (d, t) ← pDay t
  let t ← pLit '-' t
  let (m, t) ← pMonthNum t
  let t ← pLit '-' t
  let (y, t) ← pYear4 t
  if t.isEmpty then mkValidDate y m d else none

/-- `%d-%m-%Y - %a` (the weekday is parsed and discarded; `strptime` does not
check it against the date). -/
def tryFmtDashNumWdA (t : List Char) : Option SimpleDate := do
  let (d, t) ← pDay t
  let t ← pLit '-' t
  let (m, t) ← pMonthNum t
  let t ← pLit '-' t
  let (y, t) ← pYear4 t
  let t ← pWs1 t
  let t ← pLit '-' t
  let t ← pWs1 t
  let (_, t) ← pName weekdayAbbrs t
  if t.isEmpty then mkValidDate y m d else none

/-- `%d-%m-%Y - %A`. -/
def tryFmtDashNumWdFull (t : List Char) : Option SimpleDate := do
  let (d, t) ← pDay t
  let t ← pLit '-' t
  let (m, t) ← pMonthNum t
  let t ← pLit '-' t
  let (y, t) ← pYear4 t
  let t ← pWs1 t
  let t ← pLit '-' t
  let t ← pWs1 t
  let (_, t) ← pName weekdayNames t
  if t.isEmpty then mkValidDate y m d else none

/-- `%Y-%m-%d`. -/
def tryFmtYmd (t : List Char) : Option SimpleDate := do
  let (y, t) ← pYear4 t
  let t ← pLit '-' t
  let (m, t) ← pMonthNum t
  let t ← pLit '-' t
  let (d, t) ← pDay t
  if t.isEmpty then mkValidDate y m d else none

/-- `%d %B %Y`. -/
def tryFmtSpaceFull (t : List Char) : Option SimpleDate := do
  let (d, t) ← pDay t
  let t ← pWs1 t
  let (m, t) ← pName monthNames t
  let t ← pWs1 t
  let (y, t) ← pYear4 t
  if t.isEmpty then mkValidDate y m d else none

/-- `%d %b %Y`. -/
def tryFmtSpaceAbbr (t : List Char) : Option SimpleDate := do
  let (d, t) ← pDay t
  let t ← pWs1 t
  let (m, t) ← pName monthAbbrs t
  let t ← pWs1 t
  let (y, t) ← pYear4 t
  if t.isEmpty then mkValidDate y m d else none

/-- `datetime.fromisoformat(s).date()`, modelled for the date-only ISO form
`YYYY-MM-DD` (zero-padded) that this pipeline's data exercises; datetime
strings are handled by `parse_date`'s explicit `T`-split fallback. -/
def isoParse (t : List Char) : Option SimpleDate :=
  match t with
  | [y1, y2, y3, y4, '-', m1, m2, '-', d1, d2] =>
    if [y1, y2, y3, y4, m1, m2, d1, d2].all (fun c => isDigitChar c) then
      mkValidDate (natOfDigits [y1, y2, y3, y4]) (natOfDigits [m1, m2])
        (natOfDigits [d1, d2])
    else none
  | _ => none

/-- The body of `parse_date` after canonicalisation: the fixed format list in
order, then the ISO fallback, then the date part before a `T`. -/
def parseDateCore (t : List Char) : Option SimpleDate :=
  tryFmtSlashAbbr t <|> tryFmtDashNum t <|> tryFmtDashNumWdA t <|>
    tryFmtDashNumWdFull t <|> tryFmtYmd t <|> tryFmtSpaceFull t <|>
    tryFmtSpaceAbbr t <|> isoParse t <|>
    (if t.contains 'T' then isoParse (t.takeWhile (fun c => c ≠ 'T')) else none)

/-- `extract.parse_date`. -/
def parseDate (s : List Char) : Option SimpleDate :=
  if s.isEmpty then none else parseDateCore (canonDate s)

/-- Worker for `parenSub`, Python `re.sub(r"\((\d+)\)", r"\1", s)`. -/
def parenSubGo : Nat → List Char → List Char
  | 0, l => l
  | fuel + 1, l =>
    match l with
    | [] => []
    | c :: rest =>
      if c = '(' then
        let D := rest.takeWhile (fun d => isDigitChar d)
        if !D.isEmpty && (rest.drop D.length).head? = some ')' then
          D ++ parenSubGo fuel (rest.drop (D.length + 1))
        else c :: parenSubGo fuel rest
      else c :: parenSubGo fuel rest

/-- `(6)` → `6` (`_normalize_relative_deadline_text`, line 98). -/
def parenSub (l : List Char) : List Char := parenSubGo (l.length + 1) l

/-- Worker for `replaceWordAll`, Python
`re.sub(rf"\b{word}\b", rep, s)` for an all-letter lower-case `word`;
subsequent boundary checks use the original characters. -/
def replaceWordGo (w rep : List Char) : Nat → Option Char → List Char → List Char
  | 0, _, l => l
  | fuel + 1, prev, l =>
    match l with
    | [] => []
    | c :: rest =>
      if startsWithL w l && !isWordOpt prev && !isWordOpt (l.drop w.length).head? then
        rep ++ replaceWordGo w rep fuel w.getLast? (l.drop w.length)
      else c :: replaceWordGo w rep fuel (some c) rest

/-- Replace every boundary-delimited occurrence of a word. -/
def replaceWordAll (w rep l : List Char) : List Char :=
  replaceWordGo w rep (l.length + 1) none l

/-- `NUMBER_WORDS` of `extract.py`, in insertion (iteration) order. -/
def numberWords : List (List Char × Nat) :=
  [(lc "one", 1), (lc "two", 2), (lc "three", 3), (lc "four", 4),
   (lc "five", 5), (lc "six", 6), (lc "seven", 7), (lc "eight", 8),
   (lc "nine", 9), (lc "ten", 10), (lc "eleven", 11), (lc "twelve", 12),
   (lc "thirteen", 13), (lc "fourteen", 14), (lc "fifteen", 15),
   (lc "sixteen", 16), (lc "seventeen", 17), (lc "eighteen", 18),
   (lc "nineteen", 19), (lc "twenty", 20), (lc "thirty", 30)]

/-- The number-word loop of `_normalize_relative_deadline_text`. -/
def numberWordsSub (l : List Char) : List Char :=
  numberWords.foldl (fun acc p => replaceWordAll p.1 (Nat.toDigits 10 p.2) acc) l

/-- Worker for `dupCollapse`, Python `re.sub(r"\b(\d+)\s+\1\b", r"\1", s)`:
the greedy `\d+` is forced to the maximal run (a shorter run leaves a digit
where `\s+` must match), `\s+` to the maximal whitespace run (a shorter one
leaves whitespace where the backreference's digit must match). -/
def dupCollapseGo : Nat → Option Char → List Char → List Char
  | 0, _, l => l
  | fuel + 1, prev, l =>
    match l with
    | [] => []
    | c :: rest =>
      if isDigitChar c && !isWordOpt prev then
        let D := l.takeWhile (fun d => isDigitChar d)
        let S := (l.drop D.length).takeWhile (fun d => isSpaceChar d)
        let rest2 := l.drop (D.length + S.length)
        if !S.isEmpty && startsWithL D rest2 &&
            !isWordOpt (rest2.drop D.length).head? then
          D ++ dupCollapseGo fuel D.getLast? (rest2.drop D.length)
        else c :: dupCollapseGo fuel (some c) rest
      else c :: dupCollapseGo fuel (some c) rest

/-- Collapse duplicated numbers: `6 6 weeks` → `6 weeks`. -/
def dupCollapse (l : List Char) : List Char :=
  dupCollapseGo (l.length + 1) none l

/-- `extract._normalize_relative_deadline_text`. -/
def normalizeRelText (text : List Char) : List Char :=
  let c1 := lowerL (trimL text)
  let c2 := parenSub c1
  let c3 := c2.map (fun c => if c = ',' || c = '.' then ' ' else c)
  let c4 := trimL (collapseWs c3)
  dupCollapse (numberWordsSub c4)

/-- `RELATIVE_DEADLINE_UNITS`, in the alternation order of the search
pattern `\b(\d+)\s*(day|days|week|weeks|month|months)\b`. -/
def deadlineUnits : List (List Char × Nat) :=
  [(lc "day", 1), (lc "days", 1), (lc "week", 7), (lc "weeks", 7),
   (lc "month", 30), (lc "months", 30)]

/-- `re.search(r"\b(\d+)\s*(day|days|week|weeks|month|months)\b", s)`:
leftmost position, forced maximal digit run and whitespace run, unit
alternatives in order with a trailing boundary.  Returns the amount and the
matched unit's day count. -/
def extractAmountUnit (l : List Char) : Option (Nat × Nat) := go none l
where
  tryUnits : List (List Char × Nat) → List Char → Option Nat
    | [], _ => none
    | (u, v) :: rest, t =>
      if startsWithL u t && !isWordOpt (t.drop u.length).head? then some v
      else tryUnits rest t
  go : Option Char → List Char → Option (Nat × Nat)
    | _, [] => none
    | prev, c :: rest =>
      if isDigitChar c && !isWordOpt prev then
        let D := (c :: rest).takeWhile (fun d => isDigitChar d)
        let after := (c :: rest).drop D.length
        let t := after.drop (after.takeWhile (fun d => isSpaceChar d)).length
        match tryUnits deadlineUnits t with
        | some v => some (natOfDigits D, v)
        | none => go (some c) rest
      else go (some c) rest

/-- `extract.parse_relative_deadline`.  The anchor is optional, as at the
call site (`d or parse_date(...) or parse_date(...)` may be `None`). -/
def parseRelativeDeadline (text : List Char) (anchor : Option SimpleDate) :
    Option SimpleDate :=
  if text.isEmpty then none
  else
    match anchor with
    | none => none
    | some a =>
      match extractAmountUnit (normalizeRelText text) with
      | none => none
      | some (amt, unitDays) =>
        let days := amt * unitDays
        if days = 0 then none else some (addDays a days)

/-- `extract.classify_job_category`. -/
def classifyJobCategory (title : List Char) : List Char :=
  let t := lowerL (trimL title)
  let has (s : String) : Bool := containsSub (lc s) t
  if t.isEmpty then []
  else if has "dentist" || has "dental" then lc "Dentist"
  else if has "medical laboratory" || (has "laboratory" && has "scientist") then
    lc "Medical Laboratory Scientist"
  else if has "pharmacist" || has "pharmacy" then lc "Pharmacist"
  else if has "midwife" || has "midwifery" || has "nurse" || has "nursing" ||
      has "matron" then lc "Nurse"
  else if has "medical officer" || has "doctor" || has "physician" ||
      has "obstetrician" || has "gynaecologist" || has "gynecologist" ||
      has "general practitioner" || has "oncology" then lc "Doctor"
  else if has "public health" || has "program officer" || has "programme officer" ||
      has "epidemiology" || has "surveillance" || has "health systems" ||
      has "health security" || has "project officer" then lc "Public Health"
  else if has "director" || has "manager" || has "coordinator" ||
      has "provost" || has "hse " || has "quality officer" ||
      has "inventory" || has "warehouse" then lc "Healthcare Management"
  else if has "physiotherapist" || has "optometrist" || has "therapist" ||
      has "radiographer" || has "dietitian" || has "nutritionist" then
    lc "Allied Health"
  else []

/-- The canonical (extracted) job record: the fields of the extraction JSON
schema plus the `_source` tag (`sourceTag`). -/
structure CanonJob where
  job_title : List Char := []
  company : List Char := []
  location : List Char := []
  job_type : List Char := []
  job_category : List Char := []
  salary : List Char := []
  experience : List Char := []
  qualification : List Char := []
  requirements : List (List Char) := []
  responsibilities : List (List Char) := []
  how_to_apply : List (List Char) := []
  date_posted : List Char := []
  deadline : List Char := []
  contact_email : List Char := []
  contact_phone : List Char := []
  apply_url : List Char := []
  sourceTag : List Char := []
deriving DecidableEq

/-- The deduplication key `f"{title}|{company}"` over the stripped,
lower-cased fields (`extract.deduplicate_jobs`). -/
def dedupKey (j : CanonJob) : List Char :=
  lowerL (trimL j.job_title) ++ '|' :: lowerL (trimL j.company)

/-- Worker for `deduplicate_jobs`: `seen` is the set of keys already kept. -/
def dedupGo : List (List Char) → List CanonJob → List CanonJob
  | _, [] => []
  | seen, j :: rest =>
    if seen.contains (dedupKey j) then dedupGo seen rest
    else j :: dedupGo (dedupKey j :: seen) rest

/-- `extract.deduplicate_jobs`. -/
def deduplicateJobs (jobs : List CanonJob) : List CanonJob := dedupGo [] jobs

/-- Specification version of deduplication, following the spec's words: keep
the first occurrence of each key, drop every later job with an equal key,
preserve the order otherwise. -/
def firstOcc : List CanonJob → List CanonJob
  | [] => []
  | j :: rest =>
    j :: firstOcc (rest.filter (fun q => !(dedupKey q = dedupKey j)))
termination_by l => l.length
decreasing_by
  simp only [List.length_cons]
  exact Nat.lt_succ_of_le (List.length_filter_le _ _)

/-- Worker for the first `sanitize` sub of `build_text`,
`re.sub(r"(?i)\bemail\s*(?:is\s*)?redacted\b", "email to apply", v)`: the
greedy `\s*` runs admit no backtracking (a shorter run is still followed by
whitespace where `is`/`redacted` must start), and the optional `is` group is
tried with the literal first. -/
def emailRedactedGo : Nat → Option Char → List Char → List Char
  | 0, _, l => l
  | fuel + 1, prev, l =>
    match l with
    | [] => []
    | c :: rest =>
      let matchLen : Option Nat :=
        if startsWithCI (lc "email") l && !isWordOpt prev then
          let a := l.drop 5
          let s1 := (a.takeWhile (fun d => isSpaceChar d)).length
          let b := a.drop s1
          let withIs : Option Nat :=
            if startsWithCI (lc "is") b then
              let b2 := b.drop 2
              let s2 := (b2.takeWhile (fun d => isSpaceChar d)).length
              let b3 := b2.drop s2
              if startsWithCI (lc "redacted") b3 && !isWordOpt (b3.drop 8).head? then
                some (5 + s1 + 2 + s2 + 8)
              else none
            else none
          match withIs with
          | some n => some n
          | none =>
            if startsWithCI (lc "redacted") b && !isWordOpt (b.drop 8).head? then
              some (5 + s1 + 8)
            else none
        else none
      match matchLen with
      | some n =>
        lc "email to apply" ++ emailRedactedGo fuel ((l.take n).getLast?) (l.drop n)
      | none => c :: emailRedactedGo fuel (some c) rest

/-- Replace `email [is] redacted` markers. -/
def emailRedactedSub (l : List Char) : List Char :=
  emailRedactedGo (l.length + 1) none l

/-- Lazy tail of `<email.*?protected>`: scan forward for the earliest
`protected>`; `.` does not match a newline. -/
def protectedTagTail : List Char → Option Nat
  | [] => none
  | c :: rest =>
    if startsWithCI (lc "protected>") (c :: rest) then some 10
    else if c = '\n' then none
    else (protectedTagTail rest).map (· + 1)

/-- Worker for `re.sub(r"<email.*?protected>", "email to apply", v, re.I)`. -/
def protectedTagGo : Nat → List Char → List Char
  | 0, l => l
  | fuel + 1, l =>
    match l with
    | [] => []
    | c :: rest =>
      if startsWithCI (lc "<email") l then
        match protectedTagTail (l.drop 6) with
        | some n => lc "email to apply" ++ protectedTagGo fuel (l.drop (6 + n))
        | none => c :: protectedTagGo fuel rest
      else c :: protectedTagGo fuel rest

/-- Replace `<email … protected>` markers. -/
def protectedTagSub (l : List Char) : List Char := protectedTagGo (l.length + 1) l

/-- `sanitize` of `build_text`: both substitutions in order. -/
def sanitizeVal (l : List Char) : List Char := protectedTagSub (emailRedactedSub l)

/-- The truthiness filter of `build_text.add`. -/
def keepVal (v : List Char) : Bool :=
  !v.isEmpty && !(trimL v).isEmpty && lowerL (trimL v) ≠ lc "n/a"

/-- `a or b` for strings. -/
def firstNE (a b : List Char) : List Char := if a.isEmpty then b else a

/-- `"\n\n".join(parts)`. -/
def joinParts : List (List Char) → List Char
  | [] => []
  | [x] => x
  | x :: y :: rest => x ++ '\n' :: '\n' :: joinParts (y :: rest)

/-- `extract.build_text`: labelled simple fields in order, then the seven
long fields, sanitised and truncated to 3000 characters. -/
def buildText (j : Job) : List Char :=
  let base : List (List Char × List Char) :=
    [(lc "Title", firstNE j.title j.job_title),
     (lc "Company", firstNE j.company_name j.company),
     (lc "Location", j.location),
     (lc "State", j.state),
     (lc "Country", j.country),
     (lc "Date Posted", firstNE j.date_posted j.posted_date),
     (lc "Deadline", j.deadline),
     (lc "Salary", j.salary),
     (lc "Job Type", firstNE j.job_type j.employment_type),
     (lc "Experience", j.experience),
     (lc "Qualification", j.qualification),
     (lc "Apply URL", firstNE j.link j.job_url),
     (lc "Email Protected", j.email_protected)]
  let longs : List (List Char × List Char) :=
    [(lc "Full Description", j.full_description),
     (lc "Description", j.description),
     (lc "Requirements", j.requirements),
     (lc "Responsibilities", j.responsibilities),
     (lc "How To Apply", j.how_to_apply),
     (lc "Other Info", j.other_info),
     (lc "Raw Content", j.raw_content)]
  let parts :=
    (base.filter (fun p => keepVal p.2)).map (fun p => p.1 ++ lc ": " ++ p.2) ++
    (longs.filterMap (fun p =>
      if p.2.isEmpty then none
      else
        let v := (sanitizeVal p.2).take 3000
        if keepVal v then some (p.1 ++ lc ": " ++ v) else none))
  joinParts parts

/-- `extract.pick_date`: the first parseable date among the candidate keys,
together with the key. -/
def pickDate (j : Job) : Option (SimpleDate × List Char) :=
  match parseDate j.date_posted with
  | some d => some (d, lc "date_posted")
  | none =>
    match parseDate j.posted_date with
    | some d => some (d, lc "posted_date")
    | none =>
      match parseDate j.date with
      | some d => some (d, lc "date")
      | none =>
        match parseDate j.scraped_at with
        | some d => some (d, lc "scraped_at")
        | none =>
          match parseDate j.scrapedAtTag with
          | some d => some (d, lc "_scraped_at")
          | none => none

/-- The persisted extraction cache: each URL key maps to `some record` when
the entry's `"data"` value is a dict (a well-formed record), and to `none`
when it is anything else. -/
abbrev Cache : Type := List (List Char × Option CanonJob)

/-- Dictionary lookup in the cache. -/
def cacheLookup (cache : Cache) (url : List Char) : Option (Option CanonJob) :=
  ((cache : List (List Char × Option CanonJob)).find? (fun p => p.1 = url)).map
    (fun p => p.2)

/-- `cache[url] = {"data": cj}`: replace an existing key or append. -/
def cacheInsert (cache : Cache) (url : List Char) (cj : CanonJob) : Cache :=
  let l : List (List Char × Option CanonJob) := cache
  if (l.find? (fun p => p.1 = url)).isSome then
    l.map (fun p => if p.1 = url then (p.1, some cj) else p)
  else l ++ [(url, some cj)]

/-- The `source_name` yielded by `iter_jobs`. -/
def sourceName : List Char := lc "raw_jobs.json"

/-- `job.get("link") or job.get("job_url") or job.get("apply_url") or ""`. -/
def jobApplyUrl (j : Job) : List Char :=
  firstNE j.link (firstNE j.job_url j.apply_url)

/-- Configuration of one extraction run (the CLI arguments that matter to the
processing loop). -/
structure ExtractConfig where
  today : SimpleDate
  maxAgeDays : Nat
  maxJobs : Nat
deriving DecidableEq

/-- `cutoff = today - timedelta(days=args.max_age_days)`. -/
def cutoffOf (cfg : ExtractConfig) : SimpleDate := subDays cfg.today cfg.maxAgeDays

/-- The age filter `if d and d < cutoff` of the main loop. -/
def jobIsOld (cutoff : SimpleDate) (j : Job) : Bool :=
  match pickDate j with
  | some (d, _) => dateLt d cutoff
  | none => false

/-- What the main loop does with one job before any model call. -/
inductive StepOutcome where
  | skipOld
  | cacheHit (cj : CanonJob)
  | skipEmpty
  | llmCall (text : List Char)
deriving DecidableEq

/-- A usable cache entry: a nonempty apply URL present in the cache whose
entry carries a dict under `"data"`. -/
def hasUsableCacheEntry (cache : Cache) (j : Job) : Bool :=
  match (if (jobApplyUrl j).isEmpty then none else cacheLookup cache (jobApplyUrl j)) with
  | some (some _) => true
  | _ => false

/-- The per-job control flow of `extract.main`'s loop up to the model call:
age filter, then cache reuse, then the empty-text filter
(lines 377–405 of `extract.py`). -/
def processOutcome (cutoff : SimpleDate) (cache : Cache) (j : Job) : StepOutcome :=
  if jobIsOld cutoff j then .skipOld
  else
    match (if (jobApplyUrl j).isEmpty then none
           else cacheLookup cache (jobApplyUrl j)) with
    | some (some cj) => .cacheHit { cj with sourceTag := j.sourceTag.getD sourceName }
    | _ =>
      if (trimL (buildText j)).isEmpty then .skipEmpty
      else .llmCall (buildText j)

/-- The post-processing overlay applied to the model's record
(lines 453–485 of `extract.py`): re-assert the detected posting date, resolve
the deadline absolutely then relatively, override the category from the
title, backfill salary and apply URL, blank a protected contact e-mail,
normalise `how_to_apply`, and stamp the source. -/
def postLLM (dOpt : Option SimpleDate) (j : Job) (applyUrl : List Char)
    (data : CanonJob) : CanonJob :=
  let data :=
    match dOpt with
    | some d => { data with date_posted := dateIso d }
    | none => data
  let data :=
    match parseDate data.deadline with
    | some dd => { data with deadline := dateIso dd }
    | none =>
      let anchor :=
        dOpt <|> parseDate j.scrapedAtTag <|> parseDate j.scraped_at
      match parseRelativeDeadline data.deadline anchor with
      | some rd => { data with deadline := dateIso rd }
      | none => data
  let tc := classifyJobCategory data.job_title
  let data := if tc.isEmpty then data else { data with job_category := tc }
  let data :=
    if data.salary.isEmpty && !j.salary.isEmpty then { data with salary := j.salary }
    else data
  let data :=
    if data.apply_url.isEmpty then { data with apply_url := applyUrl } else data
  let data :=
    if hasProtectedEmail j.raw_content then { data with contact_email := [] }
    else data
  let data :=
    { data with how_to_apply := normalizeHowToApply (some data.how_to_apply) j data.apply_url }
  { data with sourceTag := j.sourceTag.getD sourceName }

/-- The mutable state of the main loop. -/
structure RunState where
  extracted : List CanonJob := []
  processed : Nat := 0
  skippedDate : Nat := 0
  skippedEmpty : Nat := 0
  errors : Nat := 0
  cacheHits : Nat := 0
  cache : Cache := []
deriving DecidableEq

/-- One loop iteration either continues or breaks out (`break` on reaching
the `--max` budget). -/
inductive StepRes where
  | cont (s : RunState)
  | stop (s : RunState)
deriving DecidableEq

/-- One iteration of the main loop on one job.  The model call is the
`oracle`; `none` models the exception path of the `try`/`except`. -/
def runStep (cfg : ExtractConfig) (oracle : Job → Option CanonJob)
    (s : RunState) (j : Job) : StepRes :=
  match processOutcome (cutoffOf cfg) s.cache j with
  | .skipOld => .cont { s with skippedDate := s.skippedDate + 1 }
  | .skipEmpty => .cont { s with skippedEmpty := s.skippedEmpty + 1 }
  | .cacheHit cj =>
    let s' := { s with extracted := s.extracted ++ [cj],
                       processed := s.processed + 1,
                       cacheHits := s.cacheHits + 1 }
    if cfg.maxJobs ≠ 0 && cfg.maxJobs ≤ s'.processed then .stop s' else .cont s'
  | .llmCall _ =>
    let s' :=
      match oracle j with
      | none => { s with errors := s.errors + 1 }
      | some data =>
        let dOpt := (pickDate j).map (fun p => p.1)
        let cj := postLLM dOpt j (jobApplyUrl j) data
        let withRec := { s with extracted := s.extracted ++ [cj],
                                processed := s.processed + 1 }
        if cj.apply_url.isEmpty then withRec
        else { withRec with cache := cacheInsert withRec.cache cj.apply_url cj }
    if cfg.maxJobs ≠ 0 && cfg.maxJobs ≤ s'.processed then .stop s' else .cont s'

/-- The main loop over the (already sorted) job list. -/
def runJobs (cfg : ExtractConfig) (oracle : Job → Option CanonJob) :
    RunState → List Job → RunState
  | s, [] => s
  | s, j :: rest =>
    match runStep cfg oracle s j with
    | .stop s' => s'
    | .cont s' => runJobs cfg oracle s' rest

/-!  ## Theorems for the claims  -/

/-- Unfolding of `parseRelativeDeadline` at a present anchor. -/
theorem parseRelativeDeadline_eq (t : List Char) (a : SimpleDate) :
    parseRelativeDeadline t (some a) =
      if t.isEmpty then none
      else
        match extractAmountUnit (normalizeRelText t) with
        | none => none
        | some (amt, u) =>
          if amt * u = 0 then none else some (addDays a (amt * u)) := rfl

/-- C3: `parse_relative_deadline(text, anchor)` returns `None` exactly when
no (amount, unit) pair can be extracted from the normalized text or the
computed day offset is non-positive (the units' day counts are positive, so
this means a zero amount); otherwise it returns the anchor plus
amount × unit-days.  With anchor 2026-01-01, both `"(6) weeks from posting"`
and `"six weeks"` yield 2026-02-12. -/
theorem parse_relative_deadline_contract :
    (∀ (t : List Char) (a : SimpleDate),
      parseRelativeDeadline t (some a) = none ↔
        (extractAmountUnit (normalizeRelText t) = none ∨
         ∃ amt u, extractAmountUnit (normalizeRelText t) = some (amt, u) ∧
           amt * u = 0)) ∧
    (∀ (t : List Char) (a : SimpleDate) (amt u : Nat),
      extractAmountUnit (normalizeRelText t) = some (amt, u) → amt * u ≠ 0 →
      parseRelativeDeadline t (some a) = some (addDays a (amt * u))) ∧
    parseRelativeDeadline (lc "(6) weeks from posting") (some ⟨2026, 1, 1⟩) =
      some ⟨2026, 2, 12⟩ ∧
    parseRelativeDeadline (lc "six weeks") (some ⟨2026, 1, 1⟩) =
      some ⟨2026, 2, 12⟩ := by
  refine ⟨?_, ?_, by decide, by decide⟩
  · intro t a
    rw [parseRelativeDeadline_eq]
    by_cases ht : t.isEmpty
    · have ht' : t = [] := by cases t <;> simp_all [List.isEmpty]
      subst ht'
      rw [if_pos ht]
      exact ⟨fun _ => Or.inl (by decide), fun _ => rfl⟩
    · rw [if_neg (by simpa using ht)]
      match hex : extractAmountUnit (normalizeRelText t) with
      | none => simp
      | some (amt, u) =>
        show (if amt * u = 0 then none else some (addDays a (amt * u))) = none ↔
          some (amt, u) = none ∨
            ∃ a2 u2, some (amt, u) = some (a2, u2) ∧ a2 * u2 = 0
        by_cases hz : amt * u = 0
        · rw [if_pos hz]
          exact ⟨fun _ => Or.inr ⟨amt, u, rfl, hz⟩, fun _ => rfl⟩
        · rw [if_neg hz]
          constructor
          · intro hc; exact absurd hc (by simp)
          · rintro (hc | ⟨amt', u', hc, hz'⟩)
            · exact absurd hc (by simp)
            · simp only [Option.some.injEq, Prod.mk.injEq] at hc
              obtain ⟨rfl, rfl⟩ := hc
              exact absurd hz' hz
  · intro t a amt u h hz
    have ht : t.isEmpty = false := by
      by_contra hne
      have ht2 : t = [] := by cases t <;> simp_all [List.isEmpty]
      subst ht2
      rw [show extractAmountUnit (normalizeRelText []) = none from by decide] at h
      exact Option.noConfusion h
    rw [parseRelativeDeadline_eq, if_neg (by simp [ht]), h]
    show (if amt * u = 0 then none else some (addDays a (amt * u))) =
      some (addDays a (amt * u))
    rw [if_neg hz]

/-- Witness for C3: a concrete pair is extracted from `"5 days"` and the
returned deadline is the anchor plus 5 days. -/
theorem parse_relative_deadline_contract_witness :
    parseRelativeDeadline (lc "5 days") (some ⟨2026, 1, 1⟩) =
      some (addDays ⟨2026, 1, 1⟩ (5 * 1)) :=
  parse_relative_deadline_contract.2.1 (lc "5 days") ⟨2026, 1, 1⟩ 5 1
    (by decide) (by decide)

/-- C10: whenever `parse_relative_deadline` returns a date, that date is the
anchor plus at least one day. -/
theorem parse_relative_deadline_strictly_later :
    ∀ (t : List Char) (a d' : SimpleDate),
      parseRelativeDeadline t (some a) = some d' →
      ∃ n, 1 ≤ n ∧ d' = addDays a n := by
  intro t a d' h
  rw [parseRelativeDeadline_eq] at h
  by_cases ht : t.isEmpty
  · rw [if_pos ht] at h; exact Option.noConfusion h
  · rw [if_neg (by simpa using ht)] at h
    match hex : extractAmountUnit (normalizeRelText t) with
    | none => rw [hex] at h; exact Option.noConfusion h
    | some (amt, u) =>
      rw [hex] at h
      have h2 : (if amt * u = 0 then none else some (addDays a (amt * u))) =
          some d' := h
      by_cases hz : amt * u = 0
      · rw [if_pos hz] at h2; exact Option.noConfusion h2
      · rw [if_neg hz] at h2
        exact ⟨amt * u, Nat.one_le_iff_ne_zero.mpr hz, (Option.some.inj h2).symm⟩

/-- Witness for C10 at the input `"2 weeks"`. -/
theorem parse_relative_deadline_strictly_later_witness :
    ∃ n, 1 ≤ n ∧ (⟨2026, 1, 15⟩ : SimpleDate) = addDays ⟨2026, 1, 1⟩ n :=
  parse_relative_deadline_strictly_later (lc "2 weeks") ⟨2026, 1, 1⟩
    ⟨2026, 1, 15⟩ (by decide)

/-- `parseDateCore` of the empty string fails. -/
theorem parseDateCore_nil : parseDateCore [] = none := by decide

/-- `canonDate` of the empty string is empty. -/
theorem canonDate_nil : canonDate [] = [] := by decide

/-- C7 (amended): `parse_date` is a function of the canonicalised string
(ordinal suffixes removed, commas removed, ends stripped with trailing
periods dropped, whitespace collapsed), so adding or removing ordinal
suffixes, commas, or trailing periods — which leave the canonical form
unchanged — cannot change the parsed date; other trailing punctuation is not
stripped.  In particular `"27th January, 2026"` and `"27 January 2026"` both
parse to 2026-01-27. -/
theorem parse_date_canonical_invariance :
    (∀ s t : List Char, canonDate s = canonDate t → parseDate s = parseDate t) ∧
    parseDate (lc "27th January, 2026") = some ⟨2026, 1, 27⟩ ∧
    parseDate (lc "27 January 2026") = some ⟨2026, 1, 27⟩ := by
  refine ⟨?_, by decide, by decide⟩
  have hemp : ∀ u : List Char, u.isEmpty = true → u = [] := by
    intro u hu
    cases u with
    | nil => rfl
    | cons c cs => simp [List.isEmpty] at hu
  have hne : ∀ u : List Char, u.isEmpty = false →
      parseDate u = parseDateCore (canonDate u) := by
    intro u hu
    unfold parseDate
    rw [if_neg (by simp [hu])]
  intro s t h
  by_cases hs : s.isEmpty <;> by_cases ht : t.isEmpty
  · rw [hemp s hs, hemp t ht]
  · rw [hemp s hs] at h ⊢
    rw [hne t (by simpa using ht), ← h, canonDate_nil, parseDateCore_nil]
    unfold parseDate
    rfl
  · rw [hemp t ht] at h ⊢
    rw [hne s (by simp_all), h, canonDate_nil, parseDateCore_nil]
    unfold parseDate
    rfl
  · rw [hne s (by simp_all), hne t (by simp_all), h]

/-- Witness for C7: two strings with the same canonical form (an ordinal
suffix, a comma, a trailing period and extra spaces added) parse alike. -/
theorem parse_date_canonical_invariance_witness :
    parseDate (lc "27th January, 2026.") = parseDate (lc "27   January 2026") :=
  parse_date_canonical_invariance.1 _ _ (by decide)

/-- Counterexample for C7 as stated: trailing punctuation other than a
period is not stripped, so appending `"!"` turns a parseable date into an
unparseable one instead of leaving the result unchanged. -/
theorem parse_date_trailing_punct_counterexample :
    parseDate (lc "27 January 2026!") = none ∧
    parseDate (lc "27 January 2026") = some ⟨2026, 1, 27⟩ ∧
    (none : Option SimpleDate) ≠ some ⟨2026, 1, 27⟩ := by
  refine ⟨by decide, by decide, by decide⟩

/-- Disjunction of the eight keyword-group conditions of
`classify_job_category`, spelled on the stripped, lower-cased title. -/
def matchesAnyCategory (title : List Char) : Bool :=
  let t := lowerL (trimL title)
  (containsSub (lc "dentist") t || containsSub (lc "dental") t) ||
  (containsSub (lc "medical laboratory") t ||
    (containsSub (lc "laboratory") t && containsSub (lc "scientist") t)) ||
  (containsSub (lc "pharmacist") t || containsSub (lc "pharmacy") t) ||
  (containsSub (lc "midwife") t || containsSub (lc "midwifery") t ||
    containsSub (lc "nurse") t || containsSub (lc "nursing") t ||
    containsSub (lc "matron") t) ||
  (containsSub (lc "medical officer") t || containsSub (lc "doctor") t ||
    containsSub (lc "physician") t || containsSub (lc "obstetrician") t ||
    containsSub (lc "gynaecologist") t || containsSub (lc "gynecologist") t ||
    containsSub (lc "general practitioner") t || containsSub (lc "oncology") t) ||
  (containsSub (lc "public health") t || containsSub (lc "program officer") t ||
    containsSub (lc "programme officer") t || containsSub (lc "epidemiology") t ||
    containsSub (lc "surveillance") t || containsSub (lc "health systems") t ||
    containsSub (lc "health security") t || containsSub (lc "project officer") t) ||
  (containsSub (lc "director") t || containsSub (lc "manager") t ||
    containsSub (lc "coordinator") t || containsSub (lc "provost") t ||
    containsSub (lc "hse ") t || containsSub (lc "quality officer") t ||
    containsSub (lc "inventory") t || containsSub (lc "warehouse") t) ||
  (containsSub (lc "physiotherapist") t || containsSub (lc "optometrist") t ||
    containsSub (lc "therapist") t || containsSub (lc "radiographer") t ||
    containsSub (lc "dietitian") t || containsSub (lc "nutritionist") t)

/-- C8: `classify_job_category` classifies "Senior Medical Officer" as
Doctor, "Registered Nurse — ICU" as Nurse and "Inventory Manager" as
Healthcare Management; the first matching group in the fixed order wins
("Nurse Manager" is a Nurse, not Healthcare Management); and a title
matching no keyword group yields the empty string. -/
theorem classify_job_category_cases :
    classifyJobCategory (lc "Senior Medical Officer") = lc "Doctor" ∧
    classifyJobCategory (lc "Registered Nurse — ICU") = lc "Nurse" ∧
    classifyJobCategory (lc "Inventory Manager") = lc "Healthcare Management" ∧
    classifyJobCategory (lc "Nurse Manager") = lc "Nurse" ∧
    (∀ title, matchesAnyCategory title = false →
      classifyJobCategory title = []) := by
  refine ⟨by decide, by decide, by decide, by decide, ?_⟩
  intro title h
  unfold matchesAnyCategory at h
  simp only [Bool.or_eq_false_iff, Bool.and_eq_false_iff] at h
  have hd : containsSub (lc "laboratory") (lowerL (trimL title)) = false ∨
      containsSub (lc "scientist") (lowerL (trimL title)) = false := by tauto
  unfold classifyJobCategory
  simp_all
  intro hne hlab hsci
  rcases hd with hd | hd <;> simp_all

/-- Witness for C8: "Accountant" matches no keyword group and classifies to
the empty string. -/
theorem classify_job_category_cases_witness :
    classifyJobCategory (lc "Accountant") = [] :=
  classify_job_category_cases.2.2.2.2 (lc "Accountant") (by decide)

/-- The dedup worker with a seen-set equals the spec's first-occurrence
filter restricted to unseen keys. -/
theorem dedupGo_firstOcc (l : List CanonJob) : ∀ seen,
    dedupGo seen l =
      firstOcc (l.filter (fun q => !(seen.contains (dedupKey q)))) := by
  induction l with
  | nil => intro seen; simp [dedupGo, firstOcc]
  | cons j rest ih =>
    intro seen
    show (if seen.contains (dedupKey j) then dedupGo seen rest
          else j :: dedupGo (dedupKey j :: seen) rest) = _
    rw [List.filter_cons]
    by_cases hj : seen.contains (dedupKey j)
    · rw [if_pos hj, ih seen, hj]
      simp
    · have hj' : seen.contains (dedupKey j) = false := by
        cases hcd : seen.contains (dedupKey j)
        · rfl
        · exact absurd hcd hj
      rw [if_neg hj, hj']
      show j :: dedupGo (dedupKey j :: seen) rest =
        firstOcc (j :: rest.filter (fun q => !(seen.contains (dedupKey q))))
      rw [firstOcc, ih (dedupKey j :: seen), List.filter_filter]
      have hpt : ∀ q ∈ rest, (!(dedupKey j :: seen).contains (dedupKey q)) =
          (!(decide (dedupKey q = dedupKey j)) && !(seen.contains (dedupKey q))) := by
        intro q _
        simp only [List.contains_cons, Bool.not_or]
        cases hc : seen.contains (dedupKey q) <;>
          cases hd : dedupKey q == dedupKey j <;>
            simp_all [beq_iff_eq]
      rw [List.filter_congr hpt]

/-- C6 (amended): `deduplicate_jobs` keeps exactly the first occurrence of
each key `strip-lower(job_title) ++ "|" ++ strip-lower(company)`, preserving
order; in particular two jobs identical on that key but with different
sources collapse to the first encountered.  (Pair equality of the two fields
is not the key: see the counterexample.) -/
theorem deduplicate_jobs_first_occurrence_by_key :
    (∀ l, deduplicateJobs l = firstOcc l) ∧
    deduplicateJobs
      [{ job_title := lc "Nurse", company := lc "Acme", sourceTag := lc "siteA" },
       { job_title := lc "nurse", company := lc "ACME", sourceTag := lc "siteB" }] =
      [{ job_title := lc "Nurse", company := lc "Acme", sourceTag := lc "siteA" }] := by
  constructor
  · intro l
    unfold deduplicateJobs
    rw [dedupGo_firstOcc l []]
    congr 1
    simp
  · decide

/-- Counterexample for C6 as stated: `"a|b"`/`"c"` and `"a"`/`"b|c"` have
different (lower-cased title, lower-cased company) pairs, yet the joined
`title|company` key collides, so the code removes the second job although
the claim says only pair-equal jobs are removed. -/
theorem deduplicate_jobs_pair_claim_false :
    deduplicateJobs
      [{ job_title := lc "a|b", company := lc "c" },
       { job_title := lc "a", company := lc "b|c" }] =
      [{ job_title := lc "a|b", company := lc "c" }] ∧
    (lowerL (lc "a|b"), lowerL (lc "c")) ≠ (lowerL (lc "a"), lowerL (lc "b|c")) := by
  refine ⟨by decide, by decide⟩

/-- C9: the output of `normalize_how_to_apply` depends on the model-proposed
list only through protected-e-mail detection on the cleaned joined text: two
model lists agreeing on that bit give identical output (in particular no
model text reaches the bullets). -/
theorem normalize_independent_of_model_list :
    ∀ (j : Job) (url : List Char) (ml1 ml2 : Option (List (List Char))),
      hasProtectedEmail (joinedModelOf ml1) = hasProtectedEmail (joinedModelOf ml2) →
      normalizeHowToApply ml1 j url = normalizeHowToApply ml2 j url := by
  intro j url ml1 ml2 h
  unfold normalizeHowToApply
  rw [h]

/-- Witness for C9: a model list with text and the non-list value produce
identical bullets, both being free of protected-e-mail markers. -/
theorem normalize_independent_of_model_list_witness :
    normalizeHowToApply (some [lc "Apply by sending your CV."]) {} [] =
      normalizeHowToApply none {} [] :=
  normalize_independent_of_model_list {} [] _ _ (by decide)

/-- C1 (amended): a job that passes the age filter and whose apply URL maps
to a well-formed cache entry (a dict under `"data"`) is served from the
cache: no model call is made, and the record appended to the output equals
the cached record in every field except the source tag, which is set from
the raw job (with the input file name as fallback). -/
theorem cache_hit_reuses_cached_record :
    ∀ (cfg : ExtractConfig) (oracle : Job → Option CanonJob) (s : RunState)
      (j : Job) (cj : CanonJob),
      jobIsOld (cutoffOf cfg) j = false →
      (jobApplyUrl j).isEmpty = false →
      cacheLookup s.cache (jobApplyUrl j) = some (some cj) →
      processOutcome (cutoffOf cfg) s.cache j =
        .cacheHit { cj with sourceTag := j.sourceTag.getD sourceName } ∧
      (∀ text, processOutcome (cutoffOf cfg) s.cache j ≠ .llmCall text) ∧
      runStep cfg oracle s j =
        (let s' : RunState :=
          { s with
            extracted := s.extracted ++
              [{ cj with sourceTag := j.sourceTag.getD sourceName }],
            processed := s.processed + 1,
            cacheHits := s.cacheHits + 1 }
         if cfg.maxJobs ≠ 0 && cfg.maxJobs ≤ s'.processed then .stop s'
         else .cont s') := by
  intro cfg oracle s j cj hold hurl hcache
  have hpo : processOutcome (cutoffOf cfg) s.cache j =
      .cacheHit { cj with sourceTag := j.sourceTag.getD sourceName } := by
    unfold processOutcome
    rw [if_neg (by simp [hold]), if_neg (by simp [hurl]), hcache]
  refine ⟨hpo, ?_, ?_⟩
  · intro text
    rw [hpo]
    intro hcon
    exact StepOutcome.noConfusion hcon
  · unfold runStep
    rw [hpo]

/-- Shared concrete run configuration for witnesses (today 2026-01-01,
90-day age window, 260-job budget, as in `EXTRACTION_CONFIG`). -/
def cfgW : ExtractConfig := ⟨⟨2026, 1, 1⟩, 90, 260⟩

/-- A well-formed cached record. -/
def cjW : CanonJob := { job_title := lc "Nurse", apply_url := lc "u", sourceTag := lc "old" }

/-- A raw job whose apply URL hits the cache. -/
def jW : Job := { apply_url := lc "u" }

/-- A run state whose cache holds `cjW` under the key `"u"`. -/
def sW : RunState := { cache := [(lc "u", some cjW)] }

/-- Witness for C1: the concrete cache hit is reused with only the source
tag replaced. -/
theorem cache_hit_reuses_cached_record_witness :
    processOutcome (cutoffOf cfgW) sW.cache jW =
      .cacheHit { cjW with sourceTag := jW.sourceTag.getD sourceName } :=
  (cache_hit_reuses_cached_record cfgW (fun _ => none) sW jW cjW
    (by decide) (by decide) (by decide)).1

/-- A raw job whose apply URL is a cache key with a malformed entry. -/
def jMal : Job := { apply_url := lc "u", title := lc "Nurse wanted" }

/-- Counterexample for C1 as stated: `"u"` is a key of the cache, but its
entry holds no dict under `"data"` (`cache.get(url, {}).get("data")` is not
a dict), so the code falls through to the model call — the claim's "never
re-sent to the LLM" fails for this persisted cache. -/
theorem cache_key_with_malformed_entry_calls_llm :
    (cacheLookup [(lc "u", none)] (jobApplyUrl jMal)).isSome = true ∧
    processOutcome (cutoffOf cfgW) [(lc "u", none)] jMal =
      .llmCall (buildText jMal) ∧
    buildText jMal ≠ [] := by
  refine ⟨by decide, by decide, by decide⟩

/-- C4 (amended): a job whose best-available parsed date is older than the
cutoff is skipped before cache reuse and before the model call — it adds no
record, bumps `skipped_date` and leaves the budget untouched; a job with
empty assembled text that does **not** hit the cache is likewise skipped
into `skipped_empty` before the model call.  (An empty-text job whose URL
hits the cache is *not* skipped: see the counterexample.) -/
theorem age_and_empty_skip_rules :
    ∀ (cfg : ExtractConfig) (oracle : Job → Option CanonJob) (s : RunState)
      (j : Job) (rest : List Job),
      (jobIsOld (cutoffOf cfg) j = true →
        runStep cfg oracle s j =
          .cont { s with skippedDate := s.skippedDate + 1 } ∧
        runJobs cfg oracle s (j :: rest) =
          runJobs cfg oracle { s with skippedDate := s.skippedDate + 1 } rest) ∧
      (jobIsOld (cutoffOf cfg) j = false →
        hasUsableCacheEntry s.cache j = false →
        (trimL (buildText j)).isEmpty = true →
        runStep cfg oracle s j =
          .cont { s with skippedEmpty := s.skippedEmpty + 1 } ∧
        runJobs cfg oracle s (j :: rest) =
          runJobs cfg oracle { s with skippedEmpty := s.skippedEmpty + 1 } rest) := by
  intro cfg oracle s j rest
  constructor
  · intro hold
    have hpo : processOutcome (cutoffOf cfg) s.cache j = .skipOld := by
      unfold processOutcome
      rw [if_pos hold]
    have hstep : runStep cfg oracle s j =
        .cont { s with skippedDate := s.skippedDate + 1 } := by
      unfold runStep
      rw [hpo]
    refine ⟨hstep, ?_⟩
    show (match runStep cfg oracle s j with
          | .stop s' => s'
          | .cont s' => runJobs cfg oracle s' rest) = _
    rw [hstep]
  · intro hold hcache hempty
    have hpo : processOutcome (cutoffOf cfg) s.cache j = .skipEmpty := by
      unfold processOutcome
      rw [if_neg (by simp [hold])]
      unfold hasUsableCacheEntry at hcache
      match hX : (if (jobApplyUrl j).isEmpty then none
                  else cacheLookup s.cache (jobApplyUrl j)) with
      | none => rw [if_pos hempty]
      | some none => rw [if_pos hempty]
      | some (some c) => rw [hX] at hcache; exact Bool.noConfusion hcache
    have hstep : runStep cfg oracle s j =
        .cont { s with skippedEmpty := s.skippedEmpty + 1 } := by
      unfold runStep
      rw [hpo]
    refine ⟨hstep, ?_⟩
    show (match runStep cfg oracle s j with
          | .stop s' => s'
          | .cont s' => runJobs cfg oracle s' rest) = _
    rw [hstep]

/-- Witness for C4: a job posted 2020-01-01 is older than the 2026 cutoff
and is skipped into `skipped_date`; a dateless job with no fields and an
uncached URL has empty text and is skipped into `skipped_empty`. -/
theorem age_and_empty_skip_rules_witness :
    runStep cfgW (fun _ => none) { } { date_posted := lc "2020-01-01" } =
      .cont { skippedDate := 1 } ∧
    runStep cfgW (fun _ => none) { } { apply_url := lc "u" } =
      .cont { skippedEmpty := 1 } :=
  ⟨((age_and_empty_skip_rules cfgW (fun _ => none) { }
      { date_posted := lc "2020-01-01" } []).1 (by decide)).1,
   ((age_and_empty_skip_rules cfgW (fun _ => none) { }
      { apply_url := lc "u" } []).2 (by decide) (by decide) (by decide)).1⟩

/-- Counterexample for C4 as stated: a job whose assembled text is empty but
whose apply URL hits the cache is *not* skipped — the cache check runs
before the empty-text check, so the job is emitted from the cache and
`skipped_empty` is not incremented. -/
theorem empty_text_cached_job_not_skipped :
    (trimL (buildText jW)).isEmpty = true ∧
    processOutcome (cutoffOf cfgW) sW.cache jW =
      .cacheHit { cjW with sourceTag := sourceName } ∧
    StepOutcome.cacheHit { cjW with sourceTag := sourceName } ≠ .skipEmpty := by
  refine ⟨by decide, by decide, by decide⟩

/-- Scan for a `\.[a-zA-Z]{2}` triple: a dot immediately followed by two
letters. -/
def dotLLGo : List Char → Bool
  | [] => false
  | c :: rest =>
    (c = '.' &&
      (match rest with
       | a :: b :: _ => isAsciiLetter a && isAsciiLetter b
       | _ => false)) || dotLLGo rest

/-- `v` begins (right after an `@`) with a nonempty domain run containing a
dot followed by at least two letters — the tail `D+\.[a-zA-Z]{2,}` of an
e-mail address, without boundary conditions. -/
def emailCoreAfterAt (v : List Char) : Bool :=
  dotLLGo ((v.takeWhile (fun c => isDomChar c)).drop 1)

/-- `l` contains a substring of the shape `local+ @ domain+ . letter letter`
— an e-mail address written out in full, with no boundary requirements.
This is the file's formalisation of "contains an e-mail address". -/
def containsPlainEmail : List Char → Bool
  | [] => false
  | [_] => false
  | a :: b :: rest =>
    (isLocalChar a && b = '@' && emailCoreAfterAt rest) ||
      containsPlainEmail (b :: rest)

/-- A list is its `takeWhile` prefix followed by the rest. -/
theorem takeWhile_append_drop (p : Char → Bool) (l : List Char) :
    l = l.takeWhile p ++ l.drop (l.takeWhile p).length := by
  induction l with
  | nil => rfl
  | cons c rest ih =>
    by_cases hc : p c
    · simp only [List.takeWhile_cons, hc, if_true, List.length_cons, List.drop_succ_cons]
      exact congrArg (c :: ·) ih
    · simp [List.takeWhile_cons, hc]

/-- Members of a `takeWhile` satisfy the predicate. -/
theorem mem_takeWhile (p : Char → Bool) {l : List Char} {c : Char}
    (h : c ∈ l.takeWhile p) : p c = true := by
  induction l with
  | nil => simp [List.takeWhile] at h
  | cons d rest ih =>
    by_cases hd : p d
    · rw [List.takeWhile_cons, if_pos hd] at h
      rcases List.mem_cons.mp h with rfl | h2
      · exact hd
      · exact ih h2
    · rw [List.takeWhile_cons, if_neg hd] at h
      simp at h

/-- The default of `getLastD` is irrelevant on a nonempty list. -/
theorem getLastD_default_irrel : ∀ (w : List Char) (d1 d2 : Char), w ≠ [] →
    w.getLastD d1 = w.getLastD d2
  | [_], _, _, _ => rfl
  | x :: y :: w, d1, d2, _ => by
    rw [show (x :: y :: w).getLastD d1 = (y :: w).getLastD x from rfl,
      show (x :: y :: w).getLastD d2 = (y :: w).getLastD x from rfl]

/-- `getLastD` of a nonempty list is a member. -/
theorem getLastD_mem (d : Char) : ∀ (w : List Char), w ≠ [] → w.getLastD d ∈ w
  | [x], _ => by simp
  | x :: y :: w, _ => by
    have h2 := getLastD_mem x (y :: w) (by simp)
    rw [List.getLastD_cons]
    exact List.mem_cons_of_mem x h2

/-- Dropping one fewer than the length of a nonempty prefix exposes its last
element. -/
theorem drop_pred_append : ∀ (w z : List Char), w ≠ [] →
    (w ++ z).drop (w.length - 1) = w.getLastD ' ' :: z
  | [x], z, _ => by simp
  | x :: y :: w2, z, _ => by
    have h1 := drop_pred_append (y :: w2) z (by simp)
    have heq := getLastD_default_irrel (y :: w2) ' ' x (by simp)
    rw [List.getLastD_cons]
    have hl : (x :: y :: w2).length - 1 = (y :: w2).length - 1 + 1 := by simp
    rw [List.cons_append, hl, List.drop_succ_cons, h1, heq]

/-- The character after the maximal `takeWhile` run fails the predicate. -/
theorem head_drop_takeWhile (p : Char → Bool) (l : List Char) :
    ∀ c, (l.drop (l.takeWhile p).length).head? = some c → p c = false := by
  induction l with
  | nil => intro c h; simp at h
  | cons d rest ih =>
    intro c h
    by_cases hd : p d
    · rw [List.takeWhile_cons, if_pos hd] at h
      simp only [List.length_cons, List.drop_succ_cons] at h
      exact ih c h
    · rw [List.takeWhile_cons, if_neg hd] at h
      simp only [List.length_nil, List.drop_zero, List.head?_cons,
        Option.some.injEq] at h
      subst h
      simpa using hd

/-- `takeWhile` over an append. -/
theorem takeWhile_append2 (p : Char → Bool) (t z : List Char) :
    (t ++ z).takeWhile p =
      t.takeWhile p ++ (if t.takeWhile p = t then z.takeWhile p else []) := by
  induction t with
  | nil => simp
  | cons c t' ih =>
    rw [List.cons_append, List.takeWhile_cons, List.takeWhile_cons]
    by_cases hc : p c
    · rw [if_pos hc, if_pos hc, ih]
      by_cases he : t'.takeWhile p = t'
      · rw [if_pos he, if_pos (by rw [he]), List.cons_append]
      · rw [if_neg he, if_neg (by
          intro hcon
          injection hcon with h1 h2
          exact he h2), List.cons_append]
    · rw [if_neg hc, if_neg hc,
        if_neg (by
          intro hcon
          exact (List.cons_ne_nil c t') hcon.symm)]
      simp

/-- `containsPlainEmail` unfolded on two heads. -/
theorem cpe_cons2 (a b : Char) (rest : List Char) :
    containsPlainEmail (a :: b :: rest) =
      ((isLocalChar a && decide (b = '@') && emailCoreAfterAt rest) ||
        containsPlainEmail (b :: rest)) := rfl

/-- No e-mail pattern in a list means none in its tail. -/
theorem cpe_tail {a : Char} {l : List Char}
    (h : containsPlainEmail (a :: l) = false) : containsPlainEmail l = false := by
  cases l with
  | nil => rfl
  | cons b rest =>
    rw [cpe_cons2] at h
    exact (Bool.or_eq_false_iff.mp h).2

/-- No e-mail pattern in a list means none in any suffix. -/
theorem cpe_drop {l : List Char} (h : containsPlainEmail l = false) :
    ∀ n, containsPlainEmail (l.drop n) = false := by
  induction l with
  | nil => intro n; rw [List.drop_nil]; rfl
  | cons a rest ih =>
    intro n
    cases n with
    | zero => exact h
    | succ n => rw [List.drop_succ_cons]; exact ih (cpe_tail h) n

/-- An e-mail pair (`local` then `@` then core) at any position makes
`containsPlainEmail` true. -/
theorem cpe_of_at : ∀ (i : Nat) (l : List Char) (a : Char) (v : List Char),
    l.drop i = a :: '@' :: v → isLocalChar a = true → emailCoreAfterAt v = true →
    containsPlainEmail l = true := by
  intro i
  induction i with
  | zero =>
    intro l a v hd hloc hcore
    rw [List.drop_zero] at hd
    subst hd
    rw [cpe_cons2]
    simp [hloc, hcore]
  | succ i ih =>
    intro l a v hd hloc hcore
    cases l with
    | nil => simp at hd
    | cons c rest =>
      rw [List.drop_succ_cons] at hd
      have h2 := ih rest a v hd hloc hcore
      cases rest with
      | nil => exact absurd h2 (by simp [containsPlainEmail])
      | cons b r2 =>
        rw [cpe_cons2, h2]
        simp

/-- A dot-letter-letter triple at any position makes `dotLLGo` true. -/
theorem dotLLGo_of_at : ∀ (j : Nat) (R : List Char) (a b : Char) (t : List Char),
    R.drop j = '.' :: a :: b :: t → isAsciiLetter a = true →
    isAsciiLetter b = true → dotLLGo R = true := by
  intro j
  induction j with
  | zero =>
    intro R a b t hd ha hb
    rw [List.drop_zero] at hd
    subst hd
    show (decide ('.' = '.') &&
      (match a :: b :: t with
       | a :: b :: _ => isAsciiLetter a && isAsciiLetter b
       | _ => false) || dotLLGo (a :: b :: t)) = true
    simp [ha, hb]
  | succ j ih =>
    intro R a b t hd ha hb
    cases R with
    | nil => simp at hd
    | cons c rest =>
      rw [List.drop_succ_cons] at hd
      have h2 := ih rest a b t hd ha hb
      show (_ || dotLLGo rest) = true
      rw [h2]
      simp

/-- A triple found in a `take` prefix is in the whole list. -/
theorem dotLLGo_take : ∀ (l : List Char) (m : Nat),
    dotLLGo (l.take m) = true → dotLLGo l = true := by
  intro l
  induction l with
  | nil => intro m h; simpa using h
  | cons c rest ih =>
    intro m h
    cases m with
    | zero => simp [dotLLGo] at h
    | succ m =>
      rw [List.take_succ_cons] at h
      rcases Bool.or_eq_true_iff.mp h with hh | ht
      · rcases Bool.and_eq_true_iff.mp hh with ⟨hc, hm⟩
        cases rest with
        | nil => rw [List.take_nil] at hm; exact absurd hm (by simp)
        | cons a r2 =>
          cases r2 with
          | nil =>
            cases m with
            | zero => exact absurd hm (by simp)
            | succ m2 => exact absurd hm (by simp)
          | cons b r3 =>
            cases m with
            | zero => exact absurd hm (by simp)
            | succ m2 =>
              cases m2 with
              | zero => exact absurd hm (by simp)
              | succ m3 =>
                have hm' : (isAsciiLetter a && isAsciiLetter b) = true := hm
                show (decide (c = '.') && _ || dotLLGo (a :: b :: r3)) = true
                simp [hc, hm']
      · show (_ || dotLLGo rest) = true
        rw [ih m ht]
        simp

/-- A triple in a list survives appending on the right. -/
theorem dotLLGo_append : ∀ (u v : List Char),
    dotLLGo u = true → dotLLGo (u ++ v) = true := by
  intro u v
  induction u with
  | nil => intro h; exact absurd h (by simp [dotLLGo])
  | cons c rest ih =>
    intro h
    rcases Bool.or_eq_true_iff.mp h with hh | ht
    · rcases Bool.and_eq_true_iff.mp hh with ⟨hc, hm⟩
      cases rest with
      | nil => exact absurd hm (by simp)
      | cons a r2 =>
        cases r2 with
        | nil => exact absurd hm (by simp)
        | cons b r3 =>
          have hm' : (isAsciiLetter a && isAsciiLetter b) = true := hm
          show (decide (c = '.') && _ || dotLLGo (a :: b :: (r3 ++ v))) = true
          simp [hc, hm']
    · show (_ || dotLLGo (rest ++ v)) = true
      rw [ih ht]
      simp

/-- Members of a `takeWhile` prefix are members of the list. -/
theorem takeWhile_mem (p : Char → Bool) : ∀ (l : List Char) (c : Char),
    c ∈ l.takeWhile p → c ∈ l := by
  intro l
  induction l with
  | nil => intro c hc; simp at hc
  | cons d rest ih =>
    intro c hc
    by_cases hd : p d
    · rw [List.takeWhile_cons, if_pos hd] at hc
      rcases List.mem_cons.mp hc with rfl | h2
      · simp
      · exact List.mem_cons_of_mem d (ih c h2)
    · rw [List.takeWhile_cons, if_neg hd] at hc
      simp at hc

/-- An e-mail core survives appending on the right. -/
theorem emailCore_append (u v : List Char) (h : emailCoreAfterAt u = true) :
    emailCoreAfterAt (u ++ v) = true := by
  unfold emailCoreAfterAt at h ⊢
  rw [takeWhile_append2]
  by_cases he : u.takeWhile (fun c => isDomChar c) = u
  · rw [if_pos he]
    cases hA : u.takeWhile (fun c => isDomChar c) with
    | nil => rw [hA] at h; exact absurd h (by simp [dotLLGo])
    | cons a A2 =>
      rw [hA] at h
      have h2 : dotLLGo A2 = true := h
      exact dotLLGo_append A2 (v.takeWhile (fun c => isDomChar c)) h2
  · rw [if_neg he, List.append_nil]
    exact h

/-- An e-mail occurrence survives appending on the right. -/
theorem cpe_append_right : ∀ (u v : List Char), containsPlainEmail u = true →
    containsPlainEmail (u ++ v) = true := by
  intro u v
  induction u with
  | nil => intro h; exact absurd h (by simp [containsPlainEmail])
  | cons a u2 ih =>
    intro h
    cases u2 with
    | nil =>
      rw [show containsPlainEmail [a] = false from rfl] at h
      exact absurd h (by simp)
    | cons b u3 =>
      simp only [List.cons_append]
      rw [cpe_cons2] at h
      rw [cpe_cons2]
      rcases Bool.or_eq_true_iff.mp h with hh | ht
      · rcases Bool.and_eq_true_iff.mp hh with ⟨hab, hcore⟩
        rcases Bool.and_eq_true_iff.mp hab with ⟨hloc, hat⟩
        rw [hloc, hat, emailCore_append u3 v hcore]
        simp
      · have h2 := ih ht
        simp only [List.cons_append] at h2
        rw [h2]
        simp

/-- Prepending a block with no `@`, whose junction with `v` cannot form the
`local@` pair, neither creates nor destroys an e-mail occurrence. -/
theorem cpe_append_skip : ∀ (u v : List Char), (∀ x ∈ u, x ≠ '@') →
    (isLocalChar (u.getLastD ' ') = false ∨ v.head? ≠ some '@') →
    containsPlainEmail (u ++ v) = containsPlainEmail v := by
  intro u v
  induction u with
  | nil => intro _ _; rfl
  | cons x u2 ih =>
    intro hmem hj
    cases u2 with
    | nil =>
      cases v with
      | nil => rfl
      | cons b r =>
        show containsPlainEmail (x :: b :: r) = containsPlainEmail (b :: r)
        rw [cpe_cons2]
        have hfirst : (isLocalChar x && decide (b = '@') && emailCoreAfterAt r) = false := by
          rcases hj with h1 | h1
          · rw [show ([x].getLastD ' ') = x from rfl] at h1
            rw [h1]
            simp
          · have hb : b ≠ '@' := by
              intro hbe
              exact h1 (by rw [List.head?_cons, hbe])
            rw [decide_eq_false hb]
            simp
        rw [hfirst]
        simp
    | cons y u3 =>
      simp only [List.cons_append]
      rw [cpe_cons2]
      have hy : decide (y = '@') = false := decide_eq_false (hmem y (by simp))
      rw [hy]
      have hcond : isLocalChar ((y :: u3).getLastD ' ') = false ∨ v.head? ≠ some '@' := by
        rcases hj with h1 | h1
        · left
          have hgl : (x :: y :: u3).getLastD ' ' = (y :: u3).getLastD ' ' := by
            rw [List.getLastD_cons]
            exact getLastD_default_irrel (y :: u3) x ' ' (by simp)
          rw [hgl] at h1
          exact h1
        · right
          exact h1
      have h2 := ih (fun z hz => hmem z (List.mem_cons_of_mem x hz)) hcond
      simp only [List.cons_append] at h2
      rw [h2]
      simp

/-- `dotLLGo` is false on a dot-free list. -/
theorem dotLLGo_dotfree : ∀ (w : List Char), (∀ c ∈ w, c ≠ '.') →
    dotLLGo w = false := by
  intro w
  induction w with
  | nil => intro _; rfl
  | cons c w2 ih =>
    intro h
    show (decide (c = '.') && _ || dotLLGo w2) = false
    rw [decide_eq_false (h c (by simp)),
      ih (fun z hz => h z (List.mem_cons_of_mem c hz))]
    simp

/-- Appending one final dot to a dot-free list still yields no
dot-letter-letter triple, the dot being last. -/
theorem dotLLGo_dotfree_dot : ∀ (w : List Char), (∀ c ∈ w, c ≠ '.') →
    dotLLGo (w ++ ['.']) = false := by
  intro w
  induction w with
  | nil => intro _; decide
  | cons c w2 ih =>
    intro h
    show (decide (c = '.') && _ || dotLLGo (w2 ++ ['.'])) = false
    rw [decide_eq_false (h c (by simp)),
      ih (fun z hz => h z (List.mem_cons_of_mem c hz))]
    simp

/-- The e-mail core fails on a dot-free block followed by a final dot. -/
theorem emailCore_dotfree_dot (w : List Char) (h : ∀ c ∈ w, c ≠ '.') :
    emailCoreAfterAt (w ++ ['.']) = false := by
  unfold emailCoreAfterAt
  rw [takeWhile_append2]
  by_cases he : w.takeWhile (fun c => isDomChar c) = w
  · rw [if_pos he, he,
      show List.takeWhile (fun c => isDomChar c) ['.'] = ['.'] from rfl]
    cases w with
    | nil => decide
    | cons a w2 =>
      show dotLLGo (w2 ++ ['.']) = false
      exact dotLLGo_dotfree_dot w2 (fun z hz => h z (List.mem_cons_of_mem a hz))
  · rw [if_neg he, List.append_nil]
    apply dotLLGo_dotfree
    intro c hc
    exact h c (takeWhile_mem (fun c => isDomChar c) w c (List.mem_of_mem_drop hc))

/-- A dot-free block followed by a single final dot contains no plain
e-mail occurrence: the only dot is the last character, so no domain can
complete. -/
theorem cpe_dotfree_dot : ∀ (w : List Char), (∀ c ∈ w, c ≠ '.') →
    containsPlainEmail (w ++ ['.']) = false := by
  intro w
  induction w with
  | nil => intro _; rfl
  | cons c w2 ih =>
    intro h
    cases w2 with
    | nil =>
      show containsPlainEmail (c :: '.' :: []) = false
      rw [cpe_cons2, show (decide (('.' : Char) = '@')) = false from by decide,
        show containsPlainEmail ['.'] = false from rfl]
      simp
    | cons d w3 =>
      show containsPlainEmail (c :: d :: (w3 ++ ['.'])) = false
      rw [cpe_cons2,
        emailCore_dotfree_dot w3
          (fun z hz => h z (List.mem_cons_of_mem c (List.mem_cons_of_mem d hz)))]
      have h2 := ih (fun z hz => h z (List.mem_cons_of_mem c hz))
      simp only [List.cons_append] at h2
      rw [h2]
      simp

/-- A list without `@` has no e-mail pattern. -/
theorem cpe_false_of_no_at : ∀ (l : List Char), (∀ c ∈ l, c ≠ '@') →
    containsPlainEmail l = false := by
  intro l
  induction l with
  | nil => intro _; rfl
  | cons a rest ih =>
    intro h
    cases rest with
    | nil => rfl
    | cons b r2 =>
      rw [cpe_cons2]
      have hb : b ≠ '@' := h b (by simp)
      rw [Bool.or_eq_false_iff]
      constructor
      · simp [hb]
      · exact ih (fun c hc => h c (List.mem_cons_of_mem a hc))

/-- Dropping `k` elements of a list exposes the `k`-th element in front. -/
theorem drop_get_cons : ∀ (l : List Char) (k : Nat) (hk : k < l.length),
    l.drop k = l.get ⟨k, hk⟩ :: l.drop (k + 1)
  | [], _, hk => absurd hk (by simp)
  | _ :: _, 0, _ => rfl
  | a :: t, k + 1, hk => by
    have h2 : k < t.length := by simpa using hk
    rw [List.drop_succ_cons, drop_get_cons t k h2]
    rfl

/-- A successful `emailTldOk` at split `k` found a dot followed by two
letters at position `k` of the domain run. -/
theorem emailTldOk_dot (R : List Char) (look : Option Char) (k m : Nat)
    (h : emailTldOk R look k = some m) :
    ∃ a b t, R.drop k = '.' :: a :: b :: t ∧ isAsciiLetter a = true ∧
      isAsciiLetter b = true := by
  unfold emailTldOk at h
  rcases dite_eq_iff.mp h with ⟨hk, h2⟩ | ⟨_, h2⟩
  swap
  · exact absurd h2 (by simp)
  rcases ite_eq_iff.mp h2 with ⟨hdot, h3⟩ | ⟨_, h3⟩
  swap
  · exact absurd h3 (by simp)
  rcases ite_eq_iff.mp h3 with ⟨hcond, _⟩ | ⟨_, h4⟩
  swap
  · exact absurd h4 (by simp)
  have hlen : 2 ≤ ((R.drop (k + 1)).takeWhile (fun c => isAsciiLetter c)).length :=
    of_decide_eq_true (Bool.and_eq_true_iff.mp hcond).1
  cases ht : (R.drop (k + 1)).takeWhile (fun c => isAsciiLetter c) with
  | nil => rw [ht] at hlen; simp at hlen
  | cons a t1 =>
    cases t1 with
    | nil => rw [ht] at hlen; simp at hlen
    | cons b t2 =>
      have hmema : isAsciiLetter a = true := by
        apply mem_takeWhile (fun c => isAsciiLetter c)
        rw [ht]
        simp
      have hmemb : isAsciiLetter b = true := by
        apply mem_takeWhile (fun c => isAsciiLetter c)
        rw [ht]
        simp
      have hdec := takeWhile_append_drop (fun c => isAsciiLetter c) (R.drop (k + 1))
      rw [ht] at hdec
      have hdk : R.drop k = '.' :: R.drop (k + 1) := by
        rw [drop_get_cons R k hk, hdot]
      refine ⟨a, b,
        t2 ++ (R.drop (k + 1)).drop (a :: b :: t2).length, ?_, hmema, hmemb⟩
      rw [hdk, hdec]
      simp [List.cons_append]

/-- A successful domain scan yields a dot-letter-letter triple strictly
inside the domain run. -/
theorem emailDomScan_dot : ∀ (k0 : Nat) (R : List Char) (look : Option Char)
    (n : Nat), emailDomScan k0 R look = some n → dotLLGo (R.drop 1) = true := by
  intro k0
  induction k0 with
  | zero => intro R look n h; exact absurd h (by simp [emailDomScan])
  | succ k ih =>
    intro R look n h
    cases htld : emailTldOk R look (k + 1) with
    | some m =>
      obtain ⟨a, b, t, hdk, ha, hb⟩ := emailTldOk_dot R look (k + 1) m htld
      have hdd : (R.drop 1).drop k = '.' :: a :: b :: t := by
        rw [List.drop_drop, Nat.add_comm]
        exact hdk
      exact dotLLGo_of_at k (R.drop 1) a b t hdd ha hb
    | none =>
      have h3 : (match emailTldOk R look (k + 1) with
          | some n => some n
          | none => emailDomScan k R look) = some n := h
      rw [htld] at h3
      exact ih R look n h3

/-- Unfolding of the e-mail matcher on a nonempty list. -/
theorem emailMatchAt_cons (prev : Option Char) (c : Char) (rest : List Char) :
    emailMatchAt prev (c :: rest) =
      if !isLocalChar c then none
      else if isWordOpt prev == isWordChar c then none
      else
        match (c :: rest).drop
            ((c :: rest).takeWhile (fun d => isLocalChar d)).length with
        | d :: r2 =>
          if d = '@' then
            let R := r2.takeWhile (fun e => isDomChar e)
            if R.isEmpty then none
            else
              match emailDomScan (R.length - 1) R ((r2.drop R.length).head?) with
              | some n =>
                some (((c :: rest).takeWhile (fun d => isLocalChar d)).length + 1 + n)
              | none => none
          else none
        | [] => none := rfl

/-- A boundary e-mail match implies a plain e-mail occurrence. -/
theorem emailMatchAt_cpe (prev : Option Char) (l : List Char) (n : Nat)
    (h : emailMatchAt prev l = some n) : containsPlainEmail l = true := by
  cases l with
  | nil => exact absurd h (by simp [emailMatchAt])
  | cons c rest =>
    rw [emailMatchAt_cons] at h
    by_cases hc : (!isLocalChar c) = true
    · rw [if_pos hc] at h
      exact absurd h (by simp)
    · rw [if_neg hc] at h
      by_cases hb : (isWordOpt prev == isWordChar c) = true
      · rw [if_pos hb] at h
        exact absurd h (by simp)
      · rw [if_neg hb] at h
        cases hdl : (c :: rest).drop
            ((c :: rest).takeWhile (fun d => isLocalChar d)).length with
        | nil =>
          rw [hdl] at h
          exact absurd h (by simp)
        | cons d r2 =>
          rw [hdl] at h
          have h2 : (if d = '@' then
              (if (r2.takeWhile (fun e => isDomChar e)).isEmpty then none
               else
                 match emailDomScan ((r2.takeWhile (fun e => isDomChar e)).length - 1)
                     (r2.takeWhile (fun e => isDomChar e))
                     ((r2.drop (r2.takeWhile (fun e => isDomChar e)).length).head?) with
                 | some n =>
                   some (((c :: rest).takeWhile (fun d => isLocalChar d)).length + 1 + n)
                 | none => none)
            else none) = some n := h
          by_cases hat : d = '@'
          · rw [if_pos hat] at h2
            by_cases hR : (r2.takeWhile (fun e => isDomChar e)).isEmpty = true
            · rw [if_pos hR] at h2
              exact absurd h2 (by simp)
            · rw [if_neg hR] at h2
              cases hscan : emailDomScan ((r2.takeWhile (fun e => isDomChar e)).length - 1)
                  (r2.takeWhile (fun e => isDomChar e))
                  ((r2.drop (r2.takeWhile (fun e => isDomChar e)).length).head?) with
              | none =>
                rw [hscan] at h2
                exact absurd h2 (by simp)
              | some m =>
                have hdot := emailDomScan_dot _ _ _ m hscan
                have hcore : emailCoreAfterAt r2 = true := hdot
                subst hat
                have hloc0 : isLocalChar c = true := by simpa using hc
                have hlocne : (c :: rest).takeWhile (fun d => isLocalChar d) ≠ [] := by
                  rw [List.takeWhile_cons, if_pos hloc0]
                  simp
                have hsplit := takeWhile_append_drop (fun d => isLocalChar d) (c :: rest)
                rw [hdl] at hsplit
                have hdrop := drop_pred_append
                  ((c :: rest).takeWhile (fun d => isLocalChar d)) ('@' :: r2) hlocne
                rw [← hsplit] at hdrop
                have hmemlast := getLastD_mem ' '
                  ((c :: rest).takeWhile (fun d => isLocalChar d)) hlocne
                have hlast := mem_takeWhile (fun d => isLocalChar d) hmemlast
                exact cpe_of_at
                  (((c :: rest).takeWhile (fun d => isLocalChar d)).length - 1)
                  (c :: rest) _ r2 hdrop hlast hcore
          · rw [if_neg hat] at h2
            exact absurd h2 (by simp)

/-- Unfolding of the e-mail substitution worker. -/
theorem emailSubGo_cons (fuel : Nat) (prev : Option Char) (c : Char)
    (rest : List Char) :
    emailSubGo (fuel + 1) prev (c :: rest) =
      match emailMatchAt prev (c :: rest) with
      | some n => emailSubGo fuel (((c :: rest).take n).getLast?) ((c :: rest).drop n)
      | none => c :: emailSubGo fuel (some c) rest := rfl

/-- Without a plain e-mail occurrence, the e-mail substitution never fires. -/
theorem emailSubGo_id : ∀ (fuel : Nat) (prev : Option Char) (l : List Char),
    containsPlainEmail l = false → emailSubGo fuel prev l = l := by
  intro fuel
  induction fuel with
  | zero => intro prev l _; rfl
  | succ f ih =>
    intro prev l hl
    cases l with
    | nil => rfl
    | cons c rest =>
      rw [emailSubGo_cons]
      cases hm : emailMatchAt prev (c :: rest) with
      | some n =>
        exact absurd (emailMatchAt_cpe prev (c :: rest) n hm) (by simp [hl])
      | none =>
        show c :: emailSubGo f (some c) rest = c :: rest
        rw [ih (some c) rest (cpe_tail hl)]

/-- `emailSub` is the identity on texts without a plain e-mail occurrence. -/
theorem emailSub_id (l : List Char) (h : containsPlainEmail l = false) :
    emailSub l = l := emailSubGo_id (l.length + 1) none l h

/-- The character after a maximal nonspace run is whitespace. -/
theorem nonspace_run_next (w : List Char) (e : Char)
    (hc : (w.drop ((w.takeWhile (fun c => !isSpaceChar c)).length)).head? = some e) :
    isSpaceChar e = true := by
  have h2 := head_drop_takeWhile (fun c => !isSpaceChar c) w e hc
  simpa using h2

/-- After a URL match, the next character (if any) is whitespace: the greedy
`\S+` run is maximal. -/
theorem urlMatchAt_next_space (l : List Char) (n : Nat)
    (h : urlMatchAt l = some n) :
    ∀ c, ((l.drop n).head? = some c) → isSpaceChar c = true := by
  intro c hc
  simp only [urlMatchAt] at h
  rcases ite_eq_iff.mp h with ⟨_, h2⟩ | ⟨_, h2⟩
  · rcases ite_eq_iff.mp h2 with ⟨_, h3⟩ | ⟨_, h3⟩
    · exact absurd h3 (by simp)
    · injection h3 with hn
      apply nonspace_run_next (l.drop 8) c
      rw [List.drop_drop, hn]
      exact hc
  · rcases ite_eq_iff.mp h2 with ⟨_, h3⟩ | ⟨_, h3⟩
    · rcases ite_eq_iff.mp h3 with ⟨_, h4⟩ | ⟨_, h4⟩
      · exact absurd h4 (by simp)
      · injection h4 with hn
        apply nonspace_run_next (l.drop 7) c
        rw [List.drop_drop, hn]
        exact hc
    · rcases ite_eq_iff.mp h3 with ⟨_, h4⟩ | ⟨_, h4⟩
      · rcases ite_eq_iff.mp h4 with ⟨_, h5⟩ | ⟨_, h5⟩
        · exact absurd h5 (by simp)
        · injection h5 with hn
          apply nonspace_run_next (l.drop 4) c
          rw [List.drop_drop, hn]
          exact hc
      · exact absurd h4 (by simp)

/-- Unfolding of the URL substitution worker. -/
theorem urlSubGo_cons (fuel : Nat) (c : Char) (rest : List Char) :
    urlSubGo (fuel + 1) (c :: rest) =
      match urlMatchAt (c :: rest) with
      | some n => urlSubGo fuel ((c :: rest).drop n)
      | none => c :: urlSubGo fuel rest := rfl

/-- A nonspace head of the URL-substituted text was already the head of the
input: a removal is always followed by whitespace or the end. -/
theorem urlSubGo_head : ∀ (fuel : Nat) (v : List Char) (c : Char),
    (urlSubGo fuel v).head? = some c → isSpaceChar c = false →
    v.head? = some c := by
  intro fuel
  induction fuel with
  | zero => intro v c h _; exact h
  | succ f ih =>
    intro v c h hsp
    cases v with
    | nil => exact absurd (show (([] : List Char)).head? = some c from h) (by simp)
    | cons d rest =>
      rw [urlSubGo_cons] at h
      cases hm : urlMatchAt (d :: rest) with
      | some n =>
        rw [hm] at h
        have h2 := ih ((d :: rest).drop n) c h hsp
        have h3 := urlMatchAt_next_space (d :: rest) n hm c h2
        rw [h3] at hsp
        exact absurd hsp (by simp)
      | none =>
        rw [hm] at h
        have h4 : (d :: urlSubGo f rest).head? = some c := h
        rw [List.head?_cons] at h4
        rw [List.head?_cons]
        exact h4

/-- Whitespace characters are not domain characters. -/
theorem space_not_dom (c : Char) (h : isSpaceChar c = true) : isDomChar c = false := by
  have h2 : c = ' ' ∨ c = '\t' ∨ c = '\n' ∨ c = '\r' ∨ c = '\x0b' ∨ c = '\x0c' := by
    simpa [isSpaceChar, or_assoc] using h
  rcases h2 with rfl | rfl | rfl | rfl | rfl | rfl <;> decide

/-- The domain run of the URL-substituted text is a prefix of the input's
domain run. -/
theorem urlSubGo_takeWhile_dom : ∀ (fuel : Nat) (v : List Char),
    ∃ m, (urlSubGo fuel v).takeWhile (fun c => isDomChar c) =
      (v.takeWhile (fun c => isDomChar c)).take m := by
  intro fuel
  induction fuel with
  | zero =>
    intro v
    exact ⟨(v.takeWhile (fun c => isDomChar c)).length, by rw [List.take_length]; rfl⟩
  | succ f ih =>
    intro v
    cases v with
    | nil => exact ⟨0, by simp [urlSubGo]⟩
    | cons d rest =>
      rw [urlSubGo_cons]
      cases hm : urlMatchAt (d :: rest) with
      | some n =>
        show ∃ m, (urlSubGo f ((d :: rest).drop n)).takeWhile (fun c => isDomChar c) =
          ((d :: rest).takeWhile (fun c => isDomChar c)).take m
        refine ⟨0, ?_⟩
        rw [List.take_zero]
        obtain ⟨m, hm2⟩ := ih ((d :: rest).drop n)
        have hdw : ((d :: rest).drop n).takeWhile (fun c => isDomChar c) = [] := by
          cases hh : (d :: rest).drop n with
          | nil => rfl
          | cons e r2 =>
            have hsp := urlMatchAt_next_space (d :: rest) n hm e (by rw [hh]; rfl)
            rw [List.takeWhile_cons, if_neg (by simp [space_not_dom e hsp])]
        rw [hdw, List.take_nil] at hm2
        exact hm2
      | none =>
        show ∃ m, (d :: urlSubGo f rest).takeWhile (fun c => isDomChar c) =
          ((d :: rest).takeWhile (fun c => isDomChar c)).take m
        by_cases hd : isDomChar d = true
        · obtain ⟨m, hm2⟩ := ih rest
          refine ⟨m + 1, ?_⟩
          have hL : (d :: urlSubGo f rest).takeWhile (fun c => isDomChar c) =
              d :: (urlSubGo f rest).takeWhile (fun c => isDomChar c) := by
            rw [List.takeWhile_cons, if_pos hd]
          have hR : (d :: rest).takeWhile (fun c => isDomChar c) =
              d :: rest.takeWhile (fun c => isDomChar c) := by
            rw [List.takeWhile_cons, if_pos hd]
          rw [hL, hR, List.take_succ_cons, hm2]
        · refine ⟨0, ?_⟩
          have hL : (d :: urlSubGo f rest).takeWhile (fun c => isDomChar c) = [] := by
            rw [List.takeWhile_cons, if_neg hd]
          rw [hL, List.take_zero]

/-- An e-mail core surviving URL substitution was present before it. -/
theorem emailCore_urlSubGo (fuel : Nat) (r : List Char)
    (h : emailCoreAfterAt (urlSubGo fuel r) = true) : emailCoreAfterAt r = true := by
  obtain ⟨m, hm⟩ := urlSubGo_takeWhile_dom fuel r
  unfold emailCoreAfterAt at h ⊢
  rw [hm, List.drop_take] at h
  exact dotLLGo_take _ _ h

/-- No URL alternative matches at an `@`. -/
theorem urlMatchAt_at_head (r : List Char) : urlMatchAt ('@' :: r) = none := rfl

/-- URL substitution preserves the absence of a plain e-mail occurrence. -/
theorem cpe_urlSubGo : ∀ (fuel : Nat) (l : List Char),
    containsPlainEmail l = false → containsPlainEmail (urlSubGo fuel l) = false := by
  intro fuel
  induction fuel with
  | zero => intro l h; exact h
  | succ f ih =>
    intro l h
    cases l with
    | nil => exact h
    | cons c rest =>
      rw [urlSubGo_cons]
      cases hm : urlMatchAt (c :: rest) with
      | some n =>
        show containsPlainEmail (urlSubGo f ((c :: rest).drop n)) = false
        exact ih _ (cpe_drop h n)
      | none =>
        show containsPlainEmail (c :: urlSubGo f rest) = false
        have hrest := ih rest (cpe_tail h)
        cases ho : urlSubGo f rest with
        | nil => rfl
        | cons b outr =>
          rw [cpe_cons2]
          rw [ho] at hrest
          rw [hrest]
          have hfirst : (isLocalChar c && decide (b = '@') &&
              emailCoreAfterAt outr) = false := by
            by_cases hb : b = '@'
            · subst hb
              have hhead : rest.head? = some '@' :=
                urlSubGo_head f rest '@' (by rw [ho]; rfl) (by decide)
              cases rest with
              | nil => exact absurd hhead (by simp)
              | cons e r =>
                have he : e = '@' := by
                  rw [List.head?_cons] at hhead
                  injection hhead
                subst he
                rw [cpe_cons2] at h
                have h1 := (Bool.or_eq_false_iff.mp h).1
                cases hcore : emailCoreAfterAt outr with
                | false => simp
                | true =>
                  have hcr : emailCoreAfterAt r = true := by
                    cases f with
                    | zero =>
                      have ho2 : ('@' :: r) = '@' :: outr := ho
                      injection ho2 with _ ho3
                      rw [ho3]
                      exact hcore
                    | succ f2 =>
                      have hstep : urlSubGo (f2 + 1) ('@' :: r) =
                          '@' :: urlSubGo f2 r := rfl
                      rw [hstep] at ho
                      injection ho with _ ho3
                      exact emailCore_urlSubGo f2 r (by rw [ho3]; exact hcore)
                  rw [hcr] at h1
                  exact h1
            · rw [decide_eq_false hb]
              simp
          rw [hfirst]
          simp

/-- Unfoldings of the whitespace-collapsing worker at each flag value. -/
theorem collapseWsGo_cons_false (c : Char) (rest : List Char) :
    collapseWsGo false (c :: rest) =
      if isSpaceChar c then ' ' :: collapseWsGo true rest
      else c :: collapseWsGo false rest := rfl

/-- The in-run variant drops further whitespace instead of emitting. -/
theorem collapseWsGo_cons_true (c : Char) (rest : List Char) :
    collapseWsGo true (c :: rest) =
      if isSpaceChar c then collapseWsGo true rest
      else c :: collapseWsGo false rest := rfl

/-- Collapsing whitespace preserves the leading domain run. -/
theorem collapseWsGo_dom_run : ∀ (r : List Char),
    (collapseWsGo false r).takeWhile (fun c => isDomChar c) =
      r.takeWhile (fun c => isDomChar c) := by
  intro r
  induction r with
  | nil => rfl
  | cons d r2 ih =>
    by_cases hd : isSpaceChar d = true
    · rw [collapseWsGo_cons_false, if_pos hd]
      have hL : (' ' :: collapseWsGo true r2).takeWhile (fun c => isDomChar c) = [] := by
        rw [List.takeWhile_cons, if_neg (by decide)]
      have hR : (d :: r2).takeWhile (fun c => isDomChar c) = [] := by
        rw [List.takeWhile_cons, if_neg (by simp [space_not_dom d hd])]
      rw [hL, hR]
    · rw [collapseWsGo_cons_false, if_neg hd]
      by_cases hdom : isDomChar d = true
      · have hL : (d :: collapseWsGo false r2).takeWhile (fun c => isDomChar c) =
            d :: (collapseWsGo false r2).takeWhile (fun c => isDomChar c) := by
          rw [List.takeWhile_cons, if_pos hdom]
        have hR : (d :: r2).takeWhile (fun c => isDomChar c) =
            d :: r2.takeWhile (fun c => isDomChar c) := by
          rw [List.takeWhile_cons, if_pos hdom]
        rw [hL, hR, ih]
      · have hL : (d :: collapseWsGo false r2).takeWhile (fun c => isDomChar c) = [] := by
          rw [List.takeWhile_cons, if_neg hdom]
        have hR : (d :: r2).takeWhile (fun c => isDomChar c) = [] := by
          rw [List.takeWhile_cons, if_neg hdom]
        rw [hL, hR]

/-- Collapsing whitespace preserves the absence of a plain e-mail
occurrence. -/
theorem cpe_collapseWsGo : ∀ (l : List Char) (b : Bool),
    containsPlainEmail l = false → containsPlainEmail (collapseWsGo b l) = false := by
  intro l
  induction l with
  | nil => intro b _; cases b <;> rfl
  | cons c rest ih =>
    intro b h
    by_cases hc : isSpaceChar c = true
    · cases b with
      | true =>
        rw [collapseWsGo_cons_true, if_pos hc]
        exact ih true (cpe_tail h)
      | false =>
        rw [collapseWsGo_cons_false, if_pos hc]
        have hrest := ih true (cpe_tail h)
        cases ho : collapseWsGo true rest with
        | nil => rfl
        | cons b2 outr =>
          rw [cpe_cons2]
          rw [ho] at hrest
          rw [hrest, show isLocalChar ' ' = false from by decide]
          simp
    · have hL : collapseWsGo b (c :: rest) = c :: collapseWsGo false rest := by
        cases b
        · rw [collapseWsGo_cons_false, if_neg hc]
        · rw [collapseWsGo_cons_true, if_neg hc]
      rw [hL]
      have hrest := ih false (cpe_tail h)
      cases ho : collapseWsGo false rest with
      | nil => rfl
      | cons b2 outr =>
        rw [cpe_cons2]
        rw [ho] at hrest
        rw [hrest]
        have hfirst : (isLocalChar c && decide (b2 = '@') &&
            emailCoreAfterAt outr) = false := by
          by_cases hb2 : b2 = '@'
          · subst hb2
            cases rest with
            | nil =>
              exact absurd (show ([] : List Char) = '@' :: outr from ho) (by simp)
            | cons e r =>
              by_cases hes : isSpaceChar e = true
              · rw [collapseWsGo_cons_false, if_pos hes] at ho
                injection ho with h1 _
                exact absurd h1 (by decide)
              · rw [collapseWsGo_cons_false, if_neg hes] at ho
                injection ho with h1 h2
                subst h1
                rw [cpe_cons2] at h
                have h1' := (Bool.or_eq_false_iff.mp h).1
                cases hcore : emailCoreAfterAt outr with
                | false => simp
                | true =>
                  have hcr : emailCoreAfterAt r = true := by
                    unfold emailCoreAfterAt at hcore ⊢
                    rw [← h2, collapseWsGo_dom_run] at hcore
                    exact hcore
                  rw [hcr] at h1'
                  exact h1'
          · rw [decide_eq_false hb2]
            simp
        rw [hfirst]
        simp

/-- Dropping a prefix preserves the absence of a plain e-mail occurrence. -/
theorem cpe_dropWhile (p : Char → Bool) : ∀ (l : List Char),
    containsPlainEmail l = false → containsPlainEmail (l.dropWhile p) = false := by
  intro l
  induction l with
  | nil => intro h; exact h
  | cons c rest ih =>
    intro h
    rw [List.dropWhile_cons]
    by_cases hc : p c = true
    · rw [if_pos hc]
      exact ih (cpe_tail h)
    · rw [if_neg hc]
      exact h

/-- A list is its right-trimmed part followed by a run of trimmed
characters. -/
theorem reverse_dropWhile_decomp (p : Char → Bool) (w : List Char) :
    ∃ z, w = (w.reverse.dropWhile p).reverse ++ z ∧ ∀ c ∈ z, p c = true := by
  refine ⟨(w.reverse.takeWhile p).reverse, ?_, ?_⟩
  · rw [← List.reverse_append, List.takeWhile_append_dropWhile, List.reverse_reverse]
  · intro c hc
    rw [List.mem_reverse] at hc
    exact mem_takeWhile p hc

/-- Stripping preserves the absence of a plain e-mail occurrence. -/
theorem cpe_trimL (l : List Char) (h : containsPlainEmail l = false) :
    containsPlainEmail (trimL l) = false := by
  have h1 : containsPlainEmail (l.dropWhile (fun c => isSpaceChar c)) = false :=
    cpe_dropWhile _ l h
  obtain ⟨z, hz, _⟩ := reverse_dropWhile_decomp (fun c => isSpaceChar c)
    (l.dropWhile (fun c => isSpaceChar c))
  cases hres : containsPlainEmail (trimL l) with
  | false => rfl
  | true =>
    exfalso
    have hres2 : containsPlainEmail
        (((l.dropWhile (fun c => isSpaceChar c)).reverse.dropWhile
          (fun c => isSpaceChar c)).reverse) = true := hres
    have h2 := cpe_append_right _ z hres2
    rw [← hz] at h2
    rw [h2] at h1
    exact absurd h1 (by simp)

/-- `clean_text` preserves the absence of a plain e-mail occurrence. -/
theorem cpe_cleanText (l : List Char) (h : containsPlainEmail l = false) :
    containsPlainEmail (cleanText l) = false := by
  have h1 : containsPlainEmail (collapseWs l) = false := cpe_collapseWsGo l false h
  have h2 : containsPlainEmail (trimL (collapseWs l)) = false := cpe_trimL _ h1
  have h3 : containsPlainEmail (urlSub (emailSub (trimL (collapseWs l)))) = false := by
    rw [emailSub_id _ h2]
    exact cpe_urlSubGo _ _ h2
  have h4 : containsPlainEmail
      (collapseWs (urlSub (emailSub (trimL (collapseWs l))))) = false :=
    cpe_collapseWsGo _ false h3
  exact cpe_trimL _ h4

/-- The head of `dropWhile` fails the predicate. -/
theorem head_dropWhile_not (p : Char → Bool) : ∀ (l : List Char) (c : Char),
    ((l.dropWhile p).head? = some c) → p c = false := by
  intro l
  induction l with
  | nil => intro c h; simp at h
  | cons d rest ih =>
    intro c h
    rw [List.dropWhile_cons] at h
    by_cases hd : p d = true
    · rw [if_pos hd] at h
      exact ih c h
    · rw [if_neg hd] at h
      rw [List.head?_cons] at h
      injection h with h2
      rw [← h2]
      exact Bool.eq_false_iff.mpr hd

/-- `dropWhile` is the identity when the head fails the predicate. -/
theorem dropWhile_eq_self_of_head (p : Char → Bool) (l : List Char)
    (h : ∀ c, l.head? = some c → p c = false) : l.dropWhile p = l := by
  cases l with
  | nil => rfl
  | cons d rest =>
    rw [List.dropWhile_cons, if_neg (by simp [h d rfl])]

/-- `trimL` is the identity on a string with non-space ends. -/
theorem trimL_eq_self (l : List Char)
    (h1 : ∀ c, l.head? = some c → isSpaceChar c = false)
    (h2 : ∀ c, l.getLast? = some c → isSpaceChar c = false) : trimL l = l := by
  unfold trimL
  rw [dropWhile_eq_self_of_head _ l h1]
  rw [dropWhile_eq_self_of_head _ l.reverse (fun c hc => by
    rw [List.head?_reverse] at hc
    exact h2 c hc)]
  rw [List.reverse_reverse]

/-- `trimL` is idempotent. -/
theorem trimL_idem (l : List Char) : trimL (trimL l) = trimL l := by
  have htr : trimL l =
      ((l.dropWhile (fun c => isSpaceChar c)).reverse.dropWhile
        (fun c => isSpaceChar c)).reverse := rfl
  obtain ⟨z, hz, _⟩ := reverse_dropWhile_decomp (fun c => isSpaceChar c)
    (l.dropWhile (fun c => isSpaceChar c))
  rw [← htr] at hz
  apply trimL_eq_self
  · intro c hc
    cases ht : trimL l with
    | nil => rw [ht] at hc; simp at hc
    | cons d t =>
      rw [ht] at hc
      rw [List.head?_cons] at hc
      injection hc with hdc
      rw [ht] at hz
      have hhead : (l.dropWhile (fun c => isSpaceChar c)).head? = some d := by
        rw [hz]
        rfl
      have h3 := head_dropWhile_not (fun c => isSpaceChar c) l d hhead
      rw [← hdc]
      exact h3
  · intro c hc
    rw [htr, List.getLast?_reverse] at hc
    exact head_dropWhile_not (fun c => isSpaceChar c)
      (l.dropWhile (fun c => isSpaceChar c)).reverse c hc

/-- Cleaned text is already stripped. -/
theorem trimL_cleanText (l : List Char) : trimL (cleanText l) = cleanText l :=
  trimL_idem (collapseWs (urlSub (emailSub (trimL (collapseWs l)))))

/-- Members of `dropWhile` are members. -/
theorem mem_dropWhile_sub (p : Char → Bool) : ∀ (l : List Char) (c : Char),
    c ∈ l.dropWhile p → c ∈ l := by
  intro l
  induction l with
  | nil => intro c hc; simp at hc
  | cons d rest ih =>
    intro c hc
    rw [List.dropWhile_cons] at hc
    by_cases hd : p d = true
    · rw [if_pos hd] at hc
      exact List.mem_cons_of_mem d (ih c hc)
    · rw [if_neg hd] at hc
      exact hc

/-- Members of the stripped text are members of the text. -/
theorem mem_trimL (l : List Char) (c : Char) (hc : c ∈ trimL l) : c ∈ l := by
  unfold trimL at hc
  rw [List.mem_reverse] at hc
  have h2 := mem_dropWhile_sub _ _ c hc
  rw [List.mem_reverse] at h2
  exact mem_dropWhile_sub _ _ c h2

/-- Members of `take` are members. -/
theorem mem_take_sub {α : Type} : ∀ (l : List α) (n : Nat) (c : α),
    c ∈ l.take n → c ∈ l := by
  intro l
  induction l with
  | nil => intro n c h; rw [List.take_nil] at h; simp at h
  | cons d rest ih =>
    intro n c h
    cases n with
    | zero => rw [List.take_zero] at h; simp at h
    | succ n =>
      rw [List.take_succ_cons] at h
      rcases List.mem_cons.mp h with rfl | h2
      · simp
      · exact List.mem_cons_of_mem d (ih n c h2)

/-- Collapsing whitespace only keeps input characters or inserts spaces. -/
theorem mem_collapseWsGo : ∀ (l : List Char) (b : Bool) (c : Char),
    c ∈ collapseWsGo b l → c ∈ l ∨ c = ' ' := by
  intro l
  induction l with
  | nil => intro b c hc; cases b <;> simp [collapseWsGo] at hc
  | cons d rest ih =>
    intro b c hc
    by_cases hd : isSpaceChar d = true
    · cases b with
      | true =>
        rw [collapseWsGo_cons_true, if_pos hd] at hc
        rcases ih true c hc with h | h
        · exact Or.inl (List.mem_cons_of_mem d h)
        · exact Or.inr h
      | false =>
        rw [collapseWsGo_cons_false, if_pos hd] at hc
        rcases List.mem_cons.mp hc with rfl | h2
        · exact Or.inr rfl
        · rcases ih true c h2 with h | h
          · exact Or.inl (List.mem_cons_of_mem d h)
          · exact Or.inr h
    · have hL : collapseWsGo b (d :: rest) = d :: collapseWsGo false rest := by
        cases b
        · rw [collapseWsGo_cons_false, if_neg hd]
        · rw [collapseWsGo_cons_true, if_neg hd]
      rw [hL] at hc
      rcases List.mem_cons.mp hc with rfl | h2
      · exact Or.inl (by simp)
      · rcases ih false c h2 with h | h
        · exact Or.inl (List.mem_cons_of_mem d h)
        · exact Or.inr h

/-- E-mail removal only keeps input characters. -/
theorem mem_emailSubGo : ∀ (fuel : Nat) (prev : Option Char) (l : List Char)
    (c : Char), c ∈ emailSubGo fuel prev l → c ∈ l := by
  intro fuel
  induction fuel with
  | zero => intro prev l c h; exact h
  | succ f ih =>
    intro prev l c h
    cases l with
    | nil => exact h
    | cons d rest =>
      rw [emailSubGo_cons] at h
      cases hm : emailMatchAt prev (d :: rest) with
      | some n =>
        rw [hm] at h
        have h2 : c ∈ emailSubGo f (((d :: rest).take n).getLast?)
            ((d :: rest).drop n) := h
        exact List.mem_of_mem_drop (ih _ _ c h2)
      | none =>
        rw [hm] at h
        have h2 : c ∈ d :: emailSubGo f (some d) rest := h
        rcases List.mem_cons.mp h2 with rfl | h3
        · simp
        · exact List.mem_cons_of_mem d (ih _ _ c h3)

/-- URL removal only keeps input characters. -/
theorem mem_urlSubGo : ∀ (fuel : Nat) (l : List Char) (c : Char),
    c ∈ urlSubGo fuel l → c ∈ l := by
  intro fuel
  induction fuel with
  | zero => intro l c h; exact h
  | succ f ih =>
    intro l c h
    cases l with
    | nil => exact h
    | cons d rest =>
      rw [urlSubGo_cons] at h
      cases hm : urlMatchAt (d :: rest) with
      | some n =>
        rw [hm] at h
        have h2 : c ∈ urlSubGo f ((d :: rest).drop n) := h
        exact List.mem_of_mem_drop (ih _ c h2)
      | none =>
        rw [hm] at h
        have h2 : c ∈ d :: urlSubGo f rest := h
        rcases List.mem_cons.mp h2 with rfl | h3
        · simp
        · exact List.mem_cons_of_mem d (ih _ c h3)

/-- `clean_text` only keeps input characters or inserts spaces. -/
theorem mem_cleanText (l : List Char) (c : Char) (hc : c ∈ cleanText l) :
    c ∈ l ∨ c = ' ' := by
  have h1 : c ∈ collapseWs (urlSub (emailSub (trimL (collapseWs l)))) :=
    mem_trimL _ c hc
  rcases mem_collapseWsGo _ false c h1 with h2 | h2
  · have h3 := mem_urlSubGo _ _ c h2
    have h4 := mem_emailSubGo _ _ _ c h3
    have h5 : c ∈ collapseWs l := mem_trimL _ c h4
    exact mem_collapseWsGo _ false c h5
  · exact Or.inr h2

/-- Captured groups of `subjInner` consist of group-class characters. -/
theorem subjInner_go_mem : ∀ (v : List Char) (j : Nat) (g : List Char),
    subjInner.go v j = some g → ∀ c ∈ g, isGroupChar c = true := by
  intro v j
  induction j with
  | zero =>
    intro g hg c hc
    have h2 : (if (v.takeWhile (fun c => isGroupChar c)).isEmpty then none
        else some (v.takeWhile (fun c => isGroupChar c))) = some g := hg
    rcases ite_eq_iff.mp h2 with ⟨_, habs⟩ | ⟨_, heq⟩
    · exact absurd habs (by simp)
    · injection heq with heq2
      rw [← heq2] at hc
      exact mem_takeWhile _ hc
  | succ j ih =>
    intro g hg c hc
    have h2 : (if ((v.drop (j + 1)).takeWhile (fun c => isGroupChar c)).isEmpty
        then subjInner.go v j
        else some ((v.drop (j + 1)).takeWhile (fun c => isGroupChar c))) = some g := hg
    rcases ite_eq_iff.mp h2 with ⟨_, hrec⟩ | ⟨_, heq⟩
    · exact ih g hrec c hc
    · injection heq with heq2
      rw [← heq2] at hc
      exact mem_takeWhile _ hc

/-- Captured subjects of `subjInner` consist of group-class characters. -/
theorem subjInner_mem (v : List Char) (g : List Char)
    (h : subjInner v = some g) : ∀ c ∈ g, isGroupChar c = true :=
  subjInner_go_mem v _ g h

/-- The first subject pattern's tail captures only group-class characters. -/
theorem subjP1Tail_mem (u : List Char) (g : List Char)
    (h : subjP1Tail u = some g) : ∀ c ∈ g, isGroupChar c = true := by
  have h2 : (match u.drop (u.takeWhile (fun c => isSpaceChar c)).length with
      | c :: rest => if c = ':' || c = '-' then subjInner rest else none
      | [] => none) = some g := h
  cases hd : u.drop (u.takeWhile (fun c => isSpaceChar c)).length with
  | nil =>
    rw [hd] at h2
    exact absurd (show (none : Option (List Char)) = some g from h2) (by simp)
  | cons d rest =>
    rw [hd] at h2
    have h3 : (if d = ':' || d = '-' then subjInner rest else none) = some g := h2
    rcases ite_eq_iff.mp h3 with ⟨_, hinner⟩ | ⟨_, habs⟩
    · exact subjInner_mem rest g hinner
    · exact absurd habs (by simp)

/-- The first subject pattern captures only group-class characters. -/
theorem subjP1_go_mem : ∀ (t : List Char) (g : List Char),
    subjP1.go t = some g → ∀ c ∈ g, isGroupChar c = true := by
  intro t
  induction t with
  | nil =>
    intro g hg
    exact absurd (show (none : Option (List Char)) = some g from hg) (by simp)
  | cons c cs ih =>
    intro g hg
    have h2 : (if startsWithCI (lc "subject") (c :: cs) then
        (match subjP1Tail ((c :: cs).drop 7) with
         | some g2 => some g2
         | none => subjP1.go cs)
        else subjP1.go cs) = some g := hg
    rcases ite_eq_iff.mp h2 with ⟨_, h3⟩ | ⟨_, h3⟩
    · cases hs : subjP1Tail ((c :: cs).drop 7) with
      | some g2 =>
        rw [hs] at h3
        have h4 : some g2 = some g := h3
        injection h4 with h5
        rw [← h5]
        exact subjP1Tail_mem _ g2 hs
      | none =>
        rw [hs] at h3
        exact ih g h3
    · exact ih g h3

/-- Wrapper for `subjP1`. -/
theorem subjP1_mem (t : List Char) (g : List Char) (h : subjP1 t = some g) :
    ∀ c ∈ g, isGroupChar c = true := subjP1_go_mem t g h

/-- The second subject pattern's attempts capture only group-class
characters. -/
theorem subjP2_attempt_mem (u : List Char) (i : Nat) (g : List Char)
    (h : subjP2Tail.attempt u i = some g) : ∀ c ∈ g, isGroupChar c = true := by
  have h2 : ((match u.drop i with
      | c :: rest2 => if c = ':' || c = '-' then subjInner rest2 else none
      | [] => none) <|> subjInner (u.drop i)) = some g := h
  cases hd : u.drop i with
  | nil =>
    rw [hd] at h2
    exact subjInner_mem ([] : List Char) g h2
  | cons d rest2 =>
    rw [hd] at h2
    have h3 : ((if d = ':' || d = '-' then subjInner rest2 else none) <|>
        subjInner (d :: rest2)) = some g := h2
    by_cases hc : (d = ':' || d = '-' : Bool) = true
    · rw [if_pos hc] at h3
      cases hi : subjInner rest2 with
      | some g2 =>
        rw [hi] at h3
        have h4 : some g2 = some g := h3
        injection h4 with h5
        rw [← h5]
        exact subjInner_mem rest2 g2 hi
      | none =>
        rw [hi] at h3
        have h4 : subjInner (d :: rest2) = some g := h3
        exact subjInner_mem _ g h4
    · rw [if_neg hc] at h3
      have h4 : subjInner (d :: rest2) = some g := h3
      exact subjInner_mem _ g h4

/-- The second subject pattern's descent captures only group-class
characters. -/
theorem subjP2Tail_go_mem (u : List Char) : ∀ (i : Nat) (g : List Char),
    subjP2Tail.go u i = some g → ∀ c ∈ g, isGroupChar c = true := by
  intro i
  induction i with
  | zero =>
    intro g hg
    exact subjP2_attempt_mem u 0 g hg
  | succ i ih =>
    intro g hg
    have h2 : (match subjP2Tail.attempt u (i + 1) with
        | some g2 => some g2
        | none => subjP2Tail.go u i) = some g := hg
    cases ha : subjP2Tail.attempt u (i + 1) with
    | some g2 =>
      rw [ha] at h2
      have h3 : some g2 = some g := h2
      injection h3 with h4
      rw [← h4]
      exact subjP2_attempt_mem u (i + 1) g2 ha
    | none =>
      rw [ha] at h2
      have h3 : subjP2Tail.go u i = some g := h2
      exact ih g h3

/-- Wrapper for `subjP2Tail`. -/
theorem subjP2Tail_mem (u : List Char) (g : List Char)
    (h : subjP2Tail u = some g) : ∀ c ∈ g, isGroupChar c = true :=
  subjP2Tail_go_mem u _ g h

/-- The second subject pattern captures only group-class characters. -/
theorem subjP2_go_mem : ∀ (t : List Char) (g : List Char),
    subjP2.go t = some g → ∀ c ∈ g, isGroupChar c = true := by
  intro t
  induction t with
  | nil =>
    intro g hg
    exact absurd (show (none : Option (List Char)) = some g from hg) (by simp)
  | cons c cs ih =>
    intro g hg
    have h2 : (if startsWithCI (lc "with the subject") (c :: cs) then
        (match subjP2Tail ((c :: cs).drop 16) with
         | some g2 => some g2
         | none => subjP2.go cs)
        else subjP2.go cs) = some g := hg
    rcases ite_eq_iff.mp h2 with ⟨_, h3⟩ | ⟨_, h3⟩
    · cases hs : subjP2Tail ((c :: cs).drop 16) with
      | some g2 =>
        rw [hs] at h3
        have h4 : some g2 = some g := h3
        injection h4 with h5
        rw [← h5]
        exact subjP2Tail_mem _ g2 hs
      | none =>
        rw [hs] at h3
        exact ih g h3
    · exact ih g h3

/-- Wrapper for `subjP2`. -/
theorem subjP2_mem (t : List Char) (g : List Char) (h : subjP2 t = some g) :
    ∀ c ∈ g, isGroupChar c = true := subjP2_go_mem t g h

/-- A group-class character is not a dot. -/
theorem isGroupChar_ne_dot (c : Char) (h : isGroupChar c = true) : c ≠ '.' := by
  intro hc
  rw [hc] at h
  exact absurd h (by decide)

/-- Extracted subjects are dot-free: the capture class excludes dots and
cleaning only inserts spaces. -/
theorem extractSubject_dotfree (t : List Char) :
    ∀ c ∈ extractSubject t, c ≠ '.' := by
  intro c hc
  unfold extractSubject at hc
  by_cases ht : t.isEmpty = true
  · rw [if_pos ht] at hc
    simp at hc
  · rw [if_neg ht] at hc
    cases h1 : subjP1 t with
    | some g =>
      rw [h1] at hc
      have hc2 : c ∈ (cleanText g).take 120 := hc
      have hc3 := mem_take_sub _ _ c hc2
      rcases mem_cleanText g c hc3 with h2 | h2
      · exact isGroupChar_ne_dot c (subjP1_mem t g h1 c h2)
      · rw [h2]; decide
    | none =>
      rw [h1] at hc
      cases h2 : subjP2 t with
      | some g =>
        rw [h2] at hc
        have hc2 : c ∈ (cleanText g).take 120 := hc
        have hc3 := mem_take_sub _ _ c hc2
        rcases mem_cleanText g c hc3 with h3 | h3
        · exact isGroupChar_ne_dot c (subjP2_mem t g h2 c h3)
        · rw [h3]; decide
      | none =>
        rw [h2] at hc
        have hc2 : c ∈ (if containsSub (lc "using the job title as the subject")
            (lowerL t) then lc "Use the job title as the subject"
            else ([] : List Char)) := hc
        by_cases h3 : containsSub (lc "using the job title as the subject")
            (lowerL t) = true
        · rw [if_pos h3] at hc2
          intro hdot
          rw [hdot] at hc2
          exact absurd hc2 (by decide)
        · rw [if_neg h3] at hc2
          simp at hc2

/-- The subject captured from a raw job is dot-free. -/
theorem subjectOf_dotfree (j : Job) : ∀ c ∈ subjectOf j, c ≠ '.' :=
  extractSubject_dotfree (sourceTextOf j)

/-- Decidable no-`@` check for concrete blocks. -/
theorem all_ne_of_all_decide (L : List Char) (c0 : Char)
    (h : L.all (fun x => decide (x ≠ c0)) = true) : ∀ x ∈ L, x ≠ c0 := by
  intro x hx
  exact of_decide_eq_true (List.all_eq_true.mp h x hx)

/-- The raw e-mail instruction line contains no plain e-mail occurrence:
its only `@`-candidates sit in the dot-free subject, whose domain cannot
complete before the final dot. -/
theorem cpe_emailLine_raw (p : Bool) (subj : List Char)
    (hdot : ∀ c ∈ subj, c ≠ '.') :
    containsPlainEmail (emailInstructionLine p subj) = false := by
  by_cases hs : subj.isEmpty = true
  · have hsubj : subj = [] := by
      cases subj
      · rfl
      · simp at hs
    subst hsubj
    cases p <;> decide
  · cases p with
    | false =>
      have hline : emailInstructionLine false subj =
          (lc "Email the address shown on the original listing" ++ lc ".") ++
            (lc " Subject: " ++ (subj ++ lc ".")) := by
        unfold emailInstructionLine
        rw [if_neg hs]
        simp [List.append_assoc]
      rw [hline]
      rw [cpe_append_skip
        (lc "Email the address shown on the original listing" ++ lc ".")
        (lc " Subject: " ++ (subj ++ lc "."))
        (all_ne_of_all_decide _ '@' (by decide))
        (Or.inr (fun hcon => by
          have h2 : some ' ' = some '@' := hcon
          simp at h2))]
      rw [cpe_append_skip (lc " Subject: ") (subj ++ lc ".")
        (all_ne_of_all_decide _ '@' (by decide))
        (Or.inl (by decide))]
      exact cpe_dotfree_dot subj hdot
    | true =>
      have hline : emailInstructionLine true subj =
          (lc "Email the address shown on the original listing" ++
            lc " (email is protected on some sites).") ++
            (lc " Subject: " ++ (subj ++ lc ".")) := by
        unfold emailInstructionLine
        rw [if_neg hs]
        simp [List.append_assoc]
      rw [hline]
      rw [cpe_append_skip
        (lc "Email the address shown on the original listing" ++
          lc " (email is protected on some sites).")
        (lc " Subject: " ++ (subj ++ lc "."))
        (all_ne_of_all_decide _ '@' (by decide))
        (Or.inr (fun hcon => by
          have h2 : some ' ' = some '@' := hcon
          simp at h2))]
      rw [cpe_append_skip (lc " Subject: ") (subj ++ lc ".")
        (all_ne_of_all_decide _ '@' (by decide))
        (Or.inl (by decide))]
      exact cpe_dotfree_dot subj hdot

/-- The cleaned e-mail instruction line contains no plain e-mail
occurrence. -/
theorem cpe_emailLine_clean (p : Bool) (subj : List Char)
    (hdot : ∀ c ∈ subj, c ≠ '.') :
    containsPlainEmail (cleanText (emailInstructionLine p subj)) = false :=
  cpe_cleanText _ (cpe_emailLine_raw p subj hdot)

/-- The candidate bullets chosen by `normalize_how_to_apply` before the
call-to-action append (a named form of the branch inside `normalizeCore`). -/
def bulletsRaw (prot : Bool) (j : Job) (url : List Char) : List (List Char) :=
  if isPortalApply (sourceTextOf j) url then [portalBullet1, ctaBullet]
  else if hasEmailWord (sourceTextOf j) || (hasProtectedEmail (rawTextOf j) || prot) then
    [emailInstructionLine (hasProtectedEmail (rawTextOf j) || prot) (subjectOf j)]
  else if isPortalApply (sourceTextOf j) url || !url.isEmpty then [applyViaBullet]
  else []

/-- The bullets after the call-to-action append. -/
def bulletsCta (prot : Bool) (j : Job) (url : List Char) : List (List Char) :=
  let bullets := bulletsRaw prot j url
  if bullets.isEmpty then [ctaBullet]
  else
    let last := lowerL (bullets.getLastD [])
    if !containsSub (lc "apply now") last &&
        last ≠ lc "click apply now for full details." then bullets ++ [ctaBullet]
    else bullets

/-- The final filter of `normalize_how_to_apply`. -/
def bulletPred (b : List Char) : Bool :=
  !b.isEmpty && !looksLikeUrl b && !containsSub placeholderBullet (lowerL b)

/-- `normalizeCore` as a clean/filter/cap pipeline over the named stages. -/
theorem normalizeCore_pipe (prot : Bool) (j : Job) (url : List Char) :
    normalizeCore prot j url =
      (if (((bulletsCta prot j url).map cleanText).filter bulletPred).isEmpty
       then [ctaBullet]
       else (((bulletsCta prot j url).map cleanText).filter bulletPred).take 2) := rfl

/-- Case analysis of the candidate bullets. -/
theorem bulletsRaw_cases (prot : Bool) (j : Job) (url : List Char) :
    bulletsRaw prot j url = [portalBullet1, ctaBullet] ∨
    (∃ p, bulletsRaw prot j url = [emailInstructionLine p (subjectOf j)]) ∨
    bulletsRaw prot j url = [applyViaBullet] ∨
    bulletsRaw prot j url = [] := by
  unfold bulletsRaw
  by_cases h1 : isPortalApply (sourceTextOf j) url = true
  · rw [if_pos h1]
    exact Or.inl rfl
  · rw [if_neg h1]
    by_cases h2 : (hasEmailWord (sourceTextOf j) ||
        (hasProtectedEmail (rawTextOf j) || prot)) = true
    · rw [if_pos h2]
      exact Or.inr (Or.inl ⟨_, rfl⟩)
    · rw [if_neg h2]
      by_cases h3 : (isPortalApply (sourceTextOf j) url || !url.isEmpty) = true
      · rw [if_pos h3]
        exact Or.inr (Or.inr (Or.inl rfl))
      · rw [if_neg h3]
        exact Or.inr (Or.inr (Or.inr rfl))

/-- Case analysis of the appended bullets. -/
theorem bulletsCta_cases (prot : Bool) (j : Job) (url : List Char) :
    bulletsCta prot j url = [portalBullet1, ctaBullet] ∨
    bulletsCta prot j url = [applyViaBullet] ∨
    bulletsCta prot j url = [ctaBullet] ∨
    (∃ p, bulletsCta prot j url = [emailInstructionLine p (subjectOf j)]) ∨
    (∃ p, bulletsCta prot j url =
      [emailInstructionLine p (subjectOf j), ctaBullet]) := by
  have hdef : bulletsCta prot j url =
      (if (bulletsRaw prot j url).isEmpty then [ctaBullet]
       else
         if !containsSub (lc "apply now")
             (lowerL ((bulletsRaw prot j url).getLastD [])) &&
             lowerL ((bulletsRaw prot j url).getLastD []) ≠
               lc "click apply now for full details." then
           bulletsRaw prot j url ++ [ctaBullet]
         else bulletsRaw prot j url) := rfl
  rcases bulletsRaw_cases prot j url with hr | ⟨p, hr⟩ | hr | hr
  · rw [hdef, hr, if_neg (by decide), if_neg (by decide)]
    exact Or.inl rfl
  · rw [hdef, hr]
    rw [if_neg (by simp)]
    by_cases hc : (!containsSub (lc "apply now")
        (lowerL (([emailInstructionLine p (subjectOf j)]).getLastD [])) &&
        decide (lowerL (([emailInstructionLine p (subjectOf j)]).getLastD []) ≠
          lc "click apply now for full details.")) = true
    · rw [if_pos hc]
      exact Or.inr (Or.inr (Or.inr (Or.inr ⟨p, by simp⟩)))
    · rw [if_neg hc]
      exact Or.inr (Or.inr (Or.inr (Or.inl ⟨p, rfl⟩)))
  · rw [hdef, hr, if_neg (by decide), if_neg (by decide)]
    exact Or.inr (Or.inl rfl)
  · rw [hdef, hr, if_pos (by decide)]
    exact Or.inr (Or.inr (Or.inl rfl))

/-- Membership in the output of the pipeline. -/
theorem pipe_props (bs : List (List Char)) (b : List Char)
    (hb : b ∈ (if ((bs.map cleanText).filter bulletPred).isEmpty then [ctaBullet]
               else ((bs.map cleanText).filter bulletPred).take 2)) :
    b = ctaBullet ∨ (bulletPred b = true ∧ ∃ x, x ∈ bs ∧ b = cleanText x) := by
  by_cases he : ((bs.map cleanText).filter bulletPred).isEmpty = true
  · rw [if_pos he] at hb
    left
    simpa using hb
  · rw [if_neg he] at hb
    right
    have h1 : b ∈ (bs.map cleanText).filter bulletPred := mem_take_sub _ _ b hb
    have h2 := List.mem_filter.mp h1
    obtain ⟨x, hx, hbx⟩ := List.mem_map.mp h2.1
    exact ⟨h2.2, x, hx, hbx.symm⟩

/-- Length of the pipeline output. -/
theorem pipe_len (bs : List (List Char)) :
    (if ((bs.map cleanText).filter bulletPred).isEmpty then [ctaBullet]
     else ((bs.map cleanText).filter bulletPred).take 2).length = 1 ∨
    (if ((bs.map cleanText).filter bulletPred).isEmpty then [ctaBullet]
     else ((bs.map cleanText).filter bulletPred).take 2).length = 2 := by
  by_cases he : ((bs.map cleanText).filter bulletPred).isEmpty = true
  · rw [if_pos he]
    exact Or.inl rfl
  · rw [if_neg he, List.length_take]
    have hlen : 1 ≤ ((bs.map cleanText).filter bulletPred).length := by
      cases hl : (bs.map cleanText).filter bulletPred with
      | nil => rw [hl] at he; exact absurd rfl he
      | cons a t => simp
    omega

/-- Dissection of a negative `looks_like_url` on stripped text. -/
theorem looksLikeUrl_false_parts (b : List Char) (hne : b.isEmpty = false)
    (hurl : looksLikeUrl b = false) (htrim : trimL b = b) :
    containsSub (lc "http://") (lowerL b) = false ∧
    containsSub (lc "https://") (lowerL b) = false ∧
    containsSub (lc "www.") (lowerL b) = false := by
  have hh : looksLikeUrl b = (if b.isEmpty then false else
      (containsSub (lc "http://") (lowerL (trimL b)) ||
        containsSub (lc "https://") (lowerL (trimL b)) ||
        containsSub (lc "www.") (lowerL (trimL b)) ||
        fullmatchUrlish (lowerL (trimL b)))) := rfl
  rw [hh, if_neg (by simp [hne]), htrim] at hurl
  have h1 := Bool.or_eq_false_iff.mp hurl
  have h2 := Bool.or_eq_false_iff.mp h1.1
  have h3 := Bool.or_eq_false_iff.mp h2.1
  exact ⟨h3.1, h3.2, h2.2⟩

/-- Every bullet returned by the normalization core is free of plain
e-mail occurrences. -/
theorem normalizeCore_cpe (prot : Bool) (j : Job) (url : List Char)
    (b : List Char) (hb : b ∈ normalizeCore prot j url) :
    containsPlainEmail b = false := by
  rw [normalizeCore_pipe] at hb
  rcases pipe_props _ b hb with hcta | ⟨_, x, hx, hbx⟩
  · rw [hcta]
    decide
  · subst hbx
    rcases bulletsCta_cases prot j url with hr | hr | hr | ⟨p, hr⟩ | ⟨p, hr⟩ <;>
      rw [hr] at hx
    · rcases List.mem_cons.mp hx with rfl | hx2
      · decide
      · rcases List.mem_cons.mp hx2 with rfl | hx3
        · decide
        · simp at hx3
    · rcases List.mem_cons.mp hx with rfl | hx2
      · decide
      · simp at hx2
    · rcases List.mem_cons.mp hx with rfl | hx2
      · decide
      · simp at hx2
    · rcases List.mem_cons.mp hx with rfl | hx2
      · exact cpe_emailLine_clean p (subjectOf j) (subjectOf_dotfree j)
      · simp at hx2
    · rcases List.mem_cons.mp hx with rfl | hx2
      · exact cpe_emailLine_clean p (subjectOf j) (subjectOf_dotfree j)
      · rcases List.mem_cons.mp hx2 with rfl | hx3
        · decide
        · simp at hx3

/-- The overlay stages of `postLLM` before the protected-e-mail blanking:
date re-assertion, deadline resolution, category override, salary and apply
URL backfill. -/
def postLLMStage1 (dOpt : Option SimpleDate) (j : Job) (applyUrl : List Char)
    (data : CanonJob) : CanonJob :=
  let data :=
    match dOpt with
    | some d => { data with date_posted := dateIso d }
    | none => data
  let data :=
    match parseDate data.deadline with
    | some dd => { data with deadline := dateIso dd }
    | none =>
      let anchor :=
        dOpt <|> parseDate j.scrapedAtTag <|> parseDate j.scraped_at
      match parseRelativeDeadline data.deadline anchor with
      | some rd => { data with deadline := dateIso rd }
      | none => data
  let tc := classifyJobCategory data.job_title
  let data := if tc.isEmpty then data else { data with job_category := tc }
  let data :=
    if data.salary.isEmpty && !j.salary.isEmpty then { data with salary := j.salary }
    else data
  if data.apply_url.isEmpty then { data with apply_url := applyUrl } else data

/-- `postLLM` split at the protected-e-mail blanking. -/
theorem postLLM_split (dOpt : Option SimpleDate) (j : Job) (applyUrl : List Char)
    (data : CanonJob) :
    postLLM dOpt j applyUrl data =
      (let d4 := postLLMStage1 dOpt j applyUrl data
       let d5 := if hasProtectedEmail j.raw_content then
           { d4 with contact_email := [] }
         else d4
       let d6 := { d5 with
         how_to_apply := normalizeHowToApply (some d5.how_to_apply) j d5.apply_url }
       { d6 with sourceTag := j.sourceTag.getD sourceName }) := rfl

/-- C5: a protected-e-mail marker in the raw content forces an empty
`contact_email` in the canonical record, and no normalized `how_to_apply`
bullet contains a plain e-mail occurrence. -/
theorem protected_email_blanks_contact_and_bullets
    (dOpt : Option SimpleDate) (j : Job) (applyUrl : List Char) (data : CanonJob)
    (h : hasProtectedEmail j.raw_content = true) :
    (postLLM dOpt j applyUrl data).contact_email = [] ∧
      ∀ b ∈ (postLLM dOpt j applyUrl data).how_to_apply,
        containsPlainEmail b = false := by
  rw [postLLM_split]
  constructor
  · show (if hasProtectedEmail j.raw_content then
        { postLLMStage1 dOpt j applyUrl data with contact_email := [] }
        else postLLMStage1 dOpt j applyUrl data).contact_email = []
    rw [if_pos h]
  · intro b hb
    have hb2 : b ∈ normalizeCore
        (hasProtectedEmail (joinedModelOf (some
          ((if hasProtectedEmail j.raw_content then
              { postLLMStage1 dOpt j applyUrl data with contact_email := [] }
            else postLLMStage1 dOpt j applyUrl data).how_to_apply)))) j
        ((if hasProtectedEmail j.raw_content then
            { postLLMStage1 dOpt j applyUrl data with contact_email := [] }
          else postLLMStage1 dOpt j applyUrl data).apply_url) := hb
    exact normalizeCore_cpe _ j _ b hb2

/-- A raw job carrying the Cloudflare protection placeholder. -/
def jProt : Job := { raw_content := lc "Contact [email protected] to apply now" }

/-- A model record carrying a fabricated contact e-mail. -/
def cjProt : CanonJob := { contact_email := lc "x@y.co" }

/-- Witness for C5 at a concrete protected job. -/
theorem protected_email_blanks_contact_and_bullets_witness :
    (postLLM none jProt [] cjProt).contact_email = [] ∧
      ∀ b ∈ (postLLM none jProt [] cjProt).how_to_apply,
        containsPlainEmail b = false :=
  protected_email_blanks_contact_and_bullets none jProt [] cjProt (by decide)

/-- C2 (amended): `normalize_how_to_apply` returns 1 or 2 nonempty bullets,
none containing `http://`, `https://`, `www.` or a plain e-mail occurrence,
and the last bullet either carries the `apply now` call to action or is the
cleaned e-mail instruction sentence. -/
theorem normalize_how_to_apply_output_invariants
    (ml : Option (List (List Char))) (j : Job) (url : List Char) :
    ((normalizeHowToApply ml j url).length = 1 ∨
      (normalizeHowToApply ml j url).length = 2) ∧
    (∀ b ∈ normalizeHowToApply ml j url,
        b ≠ [] ∧
        containsSub (lc "http://") (lowerL b) = false ∧
        containsSub (lc "https://") (lowerL b) = false ∧
        containsSub (lc "www.") (lowerL b) = false ∧
        containsPlainEmail b = false) ∧
    (containsSub (lc "apply now")
        (lowerL ((normalizeHowToApply ml j url).getLastD [])) = true ∨
      ∃ p s, (normalizeHowToApply ml j url).getLastD [] =
        cleanText (emailInstructionLine p s)) := by
  have he : normalizeHowToApply ml j url =
      (if (((bulletsCta (hasProtectedEmail (joinedModelOf ml)) j url).map
          cleanText).filter bulletPred).isEmpty then [ctaBullet]
       else (((bulletsCta (hasProtectedEmail (joinedModelOf ml)) j url).map
          cleanText).filter bulletPred).take 2) :=
    normalizeCore_pipe (hasProtectedEmail (joinedModelOf ml)) j url
  refine ⟨?_, ?_, ?_⟩
  · rw [he]
    exact pipe_len (bulletsCta (hasProtectedEmail (joinedModelOf ml)) j url)
  · intro b hb
    have hb2 : b ∈ normalizeCore (hasProtectedEmail (joinedModelOf ml)) j url := hb
    have hcpe := normalizeCore_cpe _ j url b hb2
    rw [normalizeCore_pipe] at hb2
    rcases pipe_props _ b hb2 with hcta | ⟨hpred, x, hx, hbx⟩
    · subst hcta
      exact ⟨by decide, by decide, by decide, by decide, hcpe⟩
    · have hpe := Bool.and_eq_true_iff.mp hpred
      have hpe2 := Bool.and_eq_true_iff.mp hpe.1
      have hne : b.isEmpty = false := by simpa using hpe2.1
      have hnurl : looksLikeUrl b = false := by simpa using hpe2.2
      have htrim : trimL b = b := by
        rw [hbx]
        exact trimL_cleanText x
      obtain ⟨hu1, hu2, hu3⟩ := looksLikeUrl_false_parts b hne hnurl htrim
      refine ⟨?_, hu1, hu2, hu3, hcpe⟩
      intro hbe
      rw [hbe] at hne
      exact absurd hne (by decide)
  · rcases bulletsCta_cases (hasProtectedEmail (joinedModelOf ml)) j url with
      hr | hr | hr | ⟨p, hr⟩ | ⟨p, hr⟩
    · rw [he, hr]
      left
      decide
    · rw [he, hr]
      left
      decide
    · rw [he, hr]
      left
      decide
    · rw [he, hr]
      by_cases hpred : bulletPred
          (cleanText (emailInstructionLine p (subjectOf j))) = true
      · have hfil : (([emailInstructionLine p (subjectOf j)].map cleanText).filter
            bulletPred) = [cleanText (emailInstructionLine p (subjectOf j))] := by
          simp [List.filter_cons, hpred]
        rw [hfil, if_neg (by simp)]
        right
        exact ⟨p, subjectOf j, rfl⟩
      · have hfil : (([emailInstructionLine p (subjectOf j)].map cleanText).filter
            bulletPred) = [] := by
          simp [List.filter_cons, Bool.eq_false_iff.mpr hpred]
        rw [hfil, if_pos (by decide)]
        left
        decide
    · rw [he, hr]
      have hc2 : bulletPred (cleanText ctaBullet) = true := by decide
      by_cases hpred : bulletPred
          (cleanText (emailInstructionLine p (subjectOf j))) = true
      · have hfil : (([emailInstructionLine p (subjectOf j), ctaBullet].map
            cleanText).filter bulletPred) =
            [cleanText (emailInstructionLine p (subjectOf j)),
              cleanText ctaBullet] := by
          simp [List.filter_cons, hpred, hc2]
        rw [hfil, if_neg (by simp)]
        left
        show containsSub (lc "apply now") (lowerL (cleanText ctaBullet)) = true
        decide
      · have hfil : (([emailInstructionLine p (subjectOf j), ctaBullet].map
            cleanText).filter bulletPred) = [cleanText ctaBullet] := by
          simp [List.filter_cons, Bool.eq_false_iff.mpr hpred, hc2]
        rw [hfil, if_neg (by simp)]
        left
        show containsSub (lc "apply now") (lowerL (cleanText ctaBullet)) = true
        decide

/-- C2 counterexample job: the subject group carries a bare `http` token
into the e-mail instruction bullet. -/
def jHttp : Job := { raw_content := lc "how to apply email Subject: http guide" }

/-- C2 (counterexample to the literal claim): a returned bullet can contain
the substring `http`. -/
theorem normalize_how_to_apply_http_bullet :
    containsSub (lc "http")
      ((normalizeHowToApply (some []) jHttp []).headD []) = true := by decide

end MedJobs
